import Mathlib

/-
Verification of the resolver package manager.

Shallow embedding of the source files resolver/parser.py and
resolver/utils.py.  Python values are modelled as follows:

* Version (a frozen dataclass wrapping an int with integer order) is Int.
* VersionRange is a structure with fields start/stop (the source field
  name "end" is a Lean keyword, so it is called stop here).  The Python
  constructor raises when end < start, so every VersionRange value that
  exists at runtime in the Python program satisfies start <= stop; the
  embedding carries this as the predicate VersionRange.valid and as a
  hypothesis where needed.
* Python dicts are insertion-ordered association lists (structure PyDict):
  lookup finds the first matching key, assignment updates the value in
  place when the key exists and appends otherwise, exactly like CPython.
* Python sets of versions are modelled as duplicate-free lists; only
  membership and iteration are used by the source, and no property proved
  here depends on the iteration order of a set.
* Code that can raise an exception is modelled with Option/Except, with
  none / error meaning that the corresponding Python call raises.
-/

/- Version (the Python wrapper around an int, ordered by the int) is
modelled directly as Int below; the wrapper adds nothing but the order. -/

/-- Closed range of versions (source: class VersionRange, parser.py).
The Python field "end" is named stop here because end is a Lean keyword. -/
structure VersionRange where
  start : Int
  stop : Int
deriving DecidableEq, Repr

/-- The constructor invariant of VersionRange: __post_init__ raises unless
start <= end. -/
def VersionRange.valid (r : VersionRange) : Prop := r.start ≤ r.stop

instance (r : VersionRange) : Decidable r.valid := by
  unfold VersionRange.valid; infer_instance

/-- Membership in a range (source: VersionRange.__contains__):
start <= item <= end. -/
def VersionRange.contains (r : VersionRange) (v : Int) : Bool :=
  decide (r.start ≤ v) && decide (v ≤ r.stop)

/-- Union of two intersecting ranges (source: VersionRange.union).  The
Python method raises when the ranges are disjoint (self.end < other.start
or other.end < self.start); this is modelled by returning none. -/
def VersionRange.union? (a b : VersionRange) : Option VersionRange :=
  if a.stop < b.start ∨ b.stop < a.start then none
  else some ⟨min a.start b.start, max a.stop b.stop⟩

/-- Versioned package: a (name, version) pair (source: class VersionedPackage). -/
structure VersionedPackage where
  name : String
  version : Int
deriving DecidableEq, Repr

/-- Insertion-ordered association list standing for a Python dict. -/
structure PyDict (κ ν : Type) where
  entries : List (κ × ν)
deriving DecidableEq, Repr

/-- Python dict lookup over the underlying entry list: first entry with
the given key. -/
def PyDict.lookupList {κ ν : Type} [DecidableEq κ] : List (κ × ν) → κ → Option ν
  | [], _ => none
  | (k, v) :: rest, key => if k = key then some v else PyDict.lookupList rest key

/-- Python dict lookup d[k] / "k in d". -/
def PyDict.lookup {κ ν : Type} [DecidableEq κ] (d : PyDict κ ν) (key : κ) : Option ν :=
  PyDict.lookupList d.entries key

/-- Update helper over the underlying entry list. -/
def PyDict.setList {κ ν : Type} [DecidableEq κ] : List (κ × ν) → κ → ν → List (κ × ν)
  | [], key, val => [(key, val)]
  | (k, v) :: rest, key, val =>
    if k = key then (key, val) :: rest else (k, v) :: PyDict.setList rest key val

/-- Python dict assignment d[k] = v: update in place if the key exists
(keeping its position, as CPython does), append otherwise. -/
def PyDict.set {κ ν : Type} [DecidableEq κ] (d : PyDict κ ν) (key : κ) (val : ν) :
    PyDict κ ν :=
  ⟨PyDict.setList d.entries key val⟩

/-- Python d.keys() in insertion order. -/
def PyDict.keys {κ ν : Type} (d : PyDict κ ν) : List κ := d.entries.map Prod.fst

/-- Set of versions held as a list of ranges (source: class VersionSet).
The source constructor always leaves self.ranges sorted by start with
pairwise disjoint ranges; values of this structure are produced through
VersionSet.build below, which models that constructor. -/
structure VersionSet where
  ranges : List VersionRange
deriving DecidableEq, Repr

/-- Insertion step for sorting ranges by their start field. -/
def insertRange (r : VersionRange) : List VersionRange → List VersionRange
  | [] => [r]
  | x :: xs => if r.start ≤ x.start then r :: x :: xs else x :: insertRange r xs

/-- Sorting by start, modelling ranges.sort(key=lambda r: r.start) in
VersionSet.__init__.  (list.sort is a stable sort; only membership and
sortedness of the result matter to any property proved below, so an
insertion sort is an adequate model.) -/
def sortRanges : List VersionRange → List VersionRange
  | [] => []
  | x :: xs => insertRange x (sortRanges xs)

/-- The merging sweep of VersionSet.__init__: walk the sorted list,
merging the accumulated range with the next one while they touch or
overlap, emitting the accumulated range when a gap appears.  none models
the exception that VersionRange.union raises on disjoint ranges. -/
def sweepRanges (current : VersionRange) : List VersionRange → Option (List VersionRange)
  | [] => some [current]
  | r :: rest =>
    if current.stop < r.start then
      (sweepRanges r rest).map (fun out => current :: out)
    else
      match current.union? r with
      | none => none
      | some c => sweepRanges c rest

/-- The VersionSet constructor (source: VersionSet.__init__).  After
sorting, Python sets current = ranges[0] and then iterates over the whole
sorted list (including index 0 again), appending current at the end. -/
def VersionSet.build (rs : List VersionRange) : Option VersionSet :=
  match sortRanges rs with
  | [] => some ⟨[]⟩
  | r0 :: rest => (sweepRanges r0 (r0 :: rest)).map (fun out => ⟨out⟩)

/-- Membership in a list of ranges. -/
def memRanges (v : Int) : List VersionRange → Bool
  | [] => false
  | r :: rest => r.contains v || memRanges v rest

/-- Membership test (source: VersionSet.__contains__). -/
def VersionSet.mem (s : VersionSet) (v : Int) : Bool := memRanges v s.ranges

/-- Normalization invariant of a VersionSet's range list: every range is
valid and consecutive ranges are separated by a gap. -/
def NormList (l : List VersionRange) : Prop :=
  (∀ r ∈ l, r.valid) ∧ l.Chain' (fun a b => a.stop < b.start)

/-- The two-pointer sweep of VersionSet.intersection: advance whichever
list's current range ends first, emitting the overlap when there is one. -/
def interAux : List VersionRange → List VersionRange → List VersionRange
  | [], _ => []
  | _ :: _, [] => []
  | l :: ls, r :: rs =>
    if l.stop < r.start then interAux ls (r :: rs)
    else if r.stop < l.start then interAux (l :: ls) rs
    else if l.stop < r.stop then
      ⟨max l.start r.start, l.stop⟩ :: interAux ls (r :: rs)
    else
      ⟨max l.start r.start, r.stop⟩ :: interAux (l :: ls) rs
termination_by a b => a.length + b.length

/-- Source: VersionSet.union — build a new VersionSet from the
concatenation of the two range lists (renormalized by the constructor). -/
def VersionSet.union (a b : VersionSet) : Option VersionSet :=
  VersionSet.build (a.ranges ++ b.ranges)

/-- Source: VersionSet.intersection — two-pointer sweep, then the
constructor renormalizes the collected ranges. -/
def VersionSet.intersection (a b : VersionSet) : Option VersionSet :=
  VersionSet.build (interAux a.ranges b.ranges)

/-- Source: VersionSet.pick — the subset of an iterable of versions that
belong to the set.  Python returns a set; the model keeps the iteration
order of the input list. -/
def VersionSet.pick (s : VersionSet) (versions : List Int) : List Int :=
  versions.filter s.mem

/-- The two modes of load_package_index for combining several dependency
ranges on the same package within one entry.  An unrecognized mode string
raises a KeyError before the file is read; only the two valid modes are
modelled. -/
inductive Mode
  | intersection
  | union
deriving DecidableEq, Repr

/-- Source: the multiple_ranges_handler dictionary in load_package_index —
combine the accumulated VersionSet with VersionSet([new_range]) by
intersection or union according to the mode. -/
def rangesHandler (mode : Mode) (vs : VersionSet) (vr : VersionRange) : Option VersionSet :=
  match mode with
  | .intersection => do
      let nv ← VersionSet.build [vr]
      vs.intersection nv
  | .union => do
      let nv ← VersionSet.build [vr]
      vs.union nv

/-- Source: the deps-accumulation loop of load_package_index — for each
(name, range) of an entry, either create VersionSet([vr]) for a fresh
name or combine with the accumulated set via the mode handler. -/
def accumDeps (mode : Mode) :
    List (String × VersionRange) → PyDict String VersionSet →
    Option (PyDict String VersionSet)
  | [], d => some d
  | (name, vr) :: rest, d =>
    match d.lookup name with
    | some vs => do
        let combined ← rangesHandler mode vs vr
        accumDeps mode rest (d.set name combined)
    | none => do
        let nv ← VersionSet.build [vr]
        accumDeps mode rest (d.set name nv)

/-- Semantic combination of a list of ranges under a mode: membership in
all ranges (intersection) or in at least one (union). -/
def combineSem (mode : Mode) (rs : List VersionRange) (v : Int) : Prop :=
  match mode with
  | .intersection => ∀ r ∈ rs, r.contains v = true
  | .union => ∃ r ∈ rs, r.contains v = true

/-- Pointwise combination of two membership facts under a mode. -/
def combPoint (mode : Mode) (P Q : Prop) : Prop :=
  match mode with
  | .intersection => P ∧ Q
  | .union => P ∨ Q

/-- The ranges attached to a given requirement name within one entry's raw
dependency list, in order of appearance. -/
def rangesOf (nm : String) (raw : List (String × VersionRange)) : List VersionRange :=
  (raw.filter (fun e => e.1 = nm)).map Prod.snd

/-- What accumDeps leaves at one key, as a function of the initial value at
that key and the ranges attached to that name in the raw list. -/
def accumPost (mode : Mode) (base : Option VersionSet) (rs : List VersionRange)
    (res : Option VersionSet) : Prop :=
  match base, rs with
  | base, [] => res = base
  | none, rs => ∃ vs', res = some vs' ∧
      ∀ v, vs'.mem v = true ↔ combineSem mode rs v
  | some vs, rs => ∃ vs', res = some vs' ∧
      ∀ v, vs'.mem v = true ↔
        combPoint mode (vs.mem v = true) (combineSem mode rs v)

/-- Exception-propagating map, modelling a Python list comprehension in
which the element expression may raise: the whole comprehension raises
(none) as soon as one element does. -/
def mapO {α β : Type} (f : α → Option β) : List α → Option (List β)
  | [] => some []
  | x :: xs =>
    match f x, mapO f xs with
    | some y, some ys => some (y :: ys)
    | _, _ => none

/-- Python str.strip(): drop leading and trailing whitespace. -/
def trimChars (s : List Char) : List Char :=
  ((s.dropWhile Char.isWhitespace).reverse.dropWhile Char.isWhitespace).reverse

/-- Python s.split(sep) for a one-character separator: n separators yield
n+1 (possibly empty) pieces. -/
def splitOnChar (c : Char) : List Char → List (List Char)
  | [] => [[]]
  | x :: xs =>
    if x = c then [] :: splitOnChar c xs
    else
      match splitOnChar c xs with
      | [] => [[x]]
      | p :: ps => (x :: p) :: ps

/-- Helper for splitWs: acc is the current token, reversed. -/
def splitWsAux : List Char → List Char → List (List Char)
  | acc, [] => if acc = [] then [] else [acc.reverse]
  | acc, x :: xs =>
    if x.isWhitespace then
      if acc = [] then splitWsAux [] xs
      else acc.reverse :: splitWsAux [] xs
    else splitWsAux (x :: acc) xs

/-- Python s.split() with no argument: split on whitespace runs, with no
empty pieces. -/
def splitWs (s : List Char) : List (List Char) := splitWsAux [] s

/-- Python s.split("..") (leftmost-first, non-overlapping). -/
def splitOnDots : List Char → List (List Char)
  | [] => [[]]
  | '.' :: '.' :: xs => [] :: splitOnDots xs
  | x :: xs =>
    match splitOnDots xs with
    | [] => [[x]]
    | p :: ps => (x :: p) :: ps

/-- Digits of a decimal literal, none when empty or non-digit characters
are present. -/
def digitsToNat (ds : List Char) : Option Nat :=
  if ds = [] then none
  else if ds.all Char.isDigit then
    some (ds.foldl (fun acc c => acc * 10 + (c.toNat - '0'.toNat)) 0)
  else none

/-- Python int(s): surrounding whitespace is ignored, an optional sign is
followed by a nonempty digit string; anything else raises ValueError
(none).  (Underscore digit grouping is not modelled; no index file in the
claims uses it.) -/
def pyInt (s : List Char) : Option Int :=
  match trimChars s with
  | '-' :: ds => (digitsToNat ds).map (fun n => -(n : Int))
  | '+' :: ds => (digitsToNat ds).map (fun n => (n : Int))
  | ds => (digitsToNat ds).map (fun n => (n : Int))

/-- Source: parse_version — Version(int(s)). -/
def parse_version (s : List Char) : Option Int := pyInt s

/-- Source: parse_range — a bare version n gives the range n..n, and
m..n gives the closed range; the VersionRange constructor raises when
the end is below the start.  A string with more than one ".." makes the
two-element unpacking raise. -/
def parse_range (s : List Char) : Option VersionRange :=
  match splitOnDots s with
  | [x] => do
      let v ← parse_version x
      some ⟨v, v⟩
  | [a, b] => do
      let va ← parse_version a
      let vb ← parse_version b
      if vb < va then none else some ⟨va, vb⟩
  | _ => none

/-- Source: parse_package_version — exactly two whitespace-separated
tokens: name and version. -/
def parse_package_version (s : List Char) : Option VersionedPackage :=
  match splitWs (trimChars s) with
  | [name, ver] => (parse_version ver).map (fun v => ⟨String.mk name, v⟩)
  | _ => none

/-- Source: parse_dependency — exactly two whitespace-separated tokens:
name and range. -/
def parse_dependency (s : List Char) : Option (String × VersionRange) :=
  match splitWs s with
  | [name, rng] => (parse_range rng).map (fun r => (String.mk name, r))
  | _ => none

/-- Source: parse_dependencies — comma-separated dependencies; the single
empty piece after stripping means no dependencies. -/
def parse_dependencies (s : List Char) : Option (List (String × VersionRange)) :=
  let parts := splitOnChar ',' (trimChars s)
  if parts = [[]] then some []
  else mapO (fun p => parse_dependency (trimChars p)) parts

/-- Source: parse_entry — strip the line, split on ":" into exactly two
parts (any other number of parts makes the two-element unpacking raise a
ValueError, modelled as none), then parse both sides. -/
def parse_entry (line : List Char) :
    Option (VersionedPackage × List (String × VersionRange)) :=
  match splitOnChar ':' (trimChars line) with
  | [pkg, deps] => do
      let pv ← parse_package_version pkg
      let ds ← parse_dependencies deps
      some (pv, ds)
  | _ => none

/- The index maps package names to the set of known versions (modelled as
the list of versions in first-seen order), and dependencies maps each
versioned package to its requirement dict. -/

abbrev Index := PyDict String (List Int)

abbrev Dependencies := PyDict VersionedPackage (PyDict String VersionSet)

abbrev Setup := PyDict String Int

/-- The line loop of load_package_index over the lines of the file:
parse each entry, reject duplicate (name, version) declarations, and
accumulate index and dependencies. -/
def load_lines (mode : Mode) :
    List (List Char) → Index → Dependencies → Option (Index × Dependencies)
  | [], index, deps => some (index, deps)
  | line :: rest, index, deps => do
      let (pv, rawDeps) ← parse_entry line
      let versions := (index.lookup pv.name).getD []
      if pv.version ∈ versions then none
      else do
        let dm ← accumDeps mode rawDeps ⟨[]⟩
        load_lines mode rest (index.set pv.name (versions ++ [pv.version]))
          (deps.set pv dm)

/-- Source: load_package_index — the file is modelled by its list of
lines. -/
def load_package_index (mode : Mode) (lines : List (List Char)) :
    Option (Index × Dependencies) :=
  load_lines mode lines ⟨[]⟩ ⟨[]⟩

/-- The CNF together with the VersionedPackage/variable bijection
(source: class Formula).  The source stores the bijection as the two
dicts vp_to_var and var_to_vp built from
dict(map(reversed, enumerate(dependencies.keys(), start=1))); here it is
kept as the underlying key list, position i holding the package of
variable i+1. -/
structure Formula where
  clauses : List (List Int)
  keysList : List VersionedPackage
deriving DecidableEq, Repr

/-- The variable of a versioned package: 1 + its position in the key
list.  none models the KeyError of the Python dict lookup
bijection[vp]. -/
def findVar : List VersionedPackage → VersionedPackage → Option Nat
  | [], _ => none
  | k :: ks, vp => if k = vp then some 1 else (findVar ks vp).map (· + 1)

/-- itertools.combinations(l, 2) in iteration order. -/
def pairs {α : Type} : List α → List (α × α)
  | [] => []
  | x :: xs => (xs.map (fun y => (x, y))) ++ pairs xs

/-- Python index.get(name, default empty): the version set of a package,
empty when the package is unknown. -/
def indexGet (index : Index) (name : String) : List Int :=
  (index.lookup name).getD []

/-- The at-most-one clauses of one package (source: the first clause loop
of Formula.from_dependencies): variables of all indexed versions of the
package, then one clause (-v1, -v2) per unordered pair.
itertools.combinations materializes the whole lazy map, so a missing
bijection key for any indexed version raises even when no pair is
emitted; mapO models exactly that. -/
def amoForPackage (ks : List VersionedPackage) (p : String) (versions : List Int) :
    Option (List (List Int)) := do
  let vars ← mapO (fun v => findVar ks ⟨p, v⟩) versions
  some ((pairs vars).map (fun q => [-(Int.ofNat q.1), -(Int.ofNat q.2)]))

/-- At-most-one clauses over all packages of the index, in index order. -/
def amoClauses (ks : List VersionedPackage) :
    List (String × List Int) → Option (List (List Int))
  | [] => some []
  | (p, vs) :: rest => do
      let c1 ← amoForPackage ks p vs
      let c2 ← amoClauses ks rest
      some (c1 ++ c2)

/-- One dependency clause (source: the second clause loop of
Formula.from_dependencies): either one of the possible versions of the
requirement is selected, or vp itself is absent. -/
def depClause (ks : List VersionedPackage) (index : Index) (vp : VersionedPackage)
    (req : String) (vs : VersionSet) : Option (List Int) := do
  let possible := vs.pick (indexGet index req)
  let posVars ← mapO (fun v => findVar ks ⟨req, v⟩) possible
  let selfVar ← findVar ks vp
  some (posVars.map Int.ofNat ++ [-(Int.ofNat selfVar)])

/-- Dependency clauses of one versioned package, one per requirement. -/
def depClausesFor (ks : List VersionedPackage) (index : Index) (vp : VersionedPackage) :
    List (String × VersionSet) → Option (List (List Int))
  | [] => some []
  | (req, vs) :: rest => do
      let c ← depClause ks index vp req vs
      let cs ← depClausesFor ks index vp rest
      some (c :: cs)

/-- Dependency clauses over the whole dependency dict, in insertion
order. -/
def allDepClauses (ks : List VersionedPackage) (index : Index) :
    List (VersionedPackage × PyDict String VersionSet) → Option (List (List Int))
  | [] => some []
  | (vp, dm) :: rest => do
      let cs1 ← depClausesFor ks index vp dm.entries
      let cs2 ← allDepClauses ks index rest
      some (cs1 ++ cs2)

/-- Source: Formula.from_dependencies — at-most-one clauses for every
package of the index, then dependency clauses for every entry of the
dependency dict.  none models the KeyError raised when a needed
versioned package has no variable. -/
def Formula.from_dependencies (index : Index) (deps : Dependencies) : Option Formula := do
  let ks := deps.keys
  let amo ← amoClauses ks index.entries
  let dcs ← allDepClauses ks index deps.entries
  some ⟨amo ++ dcs, ks⟩

/- The SAT backend (pysat) is external to the repository.  It is modelled
nondeterministically: a model returned by Solver.solve/get_model is any
assignment of booleans to the variables that satisfies every clause; the
theorems below quantify over all such assignments. -/

/-- Truth of one literal under an assignment. -/
def litSat (a : Nat → Bool) (lit : Int) : Bool :=
  if 0 < lit then a lit.toNat else ! a (-lit).toNat

/-- Truth of a clause: some literal is true. -/
def clauseSat (a : Nat → Bool) (c : List Int) : Bool := c.any (litSat a)

/-- Truth of a CNF: every clause is true. -/
def cnfSat (a : Nat → Bool) (cs : List (List Int)) : Bool := cs.all (clauseSat a)

/-- The versioned packages whose variables are true, in ascending variable
order — source: [self.var_to_vp[v] for v in solver.get_model() if v > 0]
(pysat returns the model sorted by variable). -/
def trueVpsAux (a : Nat → Bool) : Nat → List VersionedPackage → List VersionedPackage
  | _, [] => []
  | i, vp :: ks => if a i then vp :: trueVpsAux a (i + 1) ks else trueVpsAux a (i + 1) ks

/-- True packages of a model, starting from variable 1. -/
def trueVps (ks : List VersionedPackage) (a : Nat → Bool) : List VersionedPackage :=
  trueVpsAux a 1 ks

/-- Source: setup = {vp.name: vp.version for vp in vps} in Formula.solve —
a later duplicate name overwrites an earlier one, as in a Python dict
comprehension. -/
def setupOf (ks : List VersionedPackage) (a : Nat → Bool) : Setup :=
  (trueVps ks a).foldl (fun d vp => d.set vp.name vp.version) ⟨[]⟩

/-- Coherence of an (index, dependencies) pair: every key of the
dependency dict is recorded in the index under its name.  This is exactly
the shape load_package_index produces; Formula.from_dependencies alone
does not require it, and the SAT at-most-one clauses only constrain the
indexed versions. -/
def coherentB (index : Index) (deps : Dependencies) : Bool :=
  deps.entries.all (fun e =>
    match index.lookup e.1.name with
    | some vs => decide (e.1.version ∈ vs)
    | none => false)

/-- Insertion-order-free model of Python set(keep): duplicates removed.
Only membership in the result is ever used. -/
def dedup : List String → List String
  | [] => []
  | x :: xs => if x ∈ xs then dedup xs else x :: dedup xs

/-- The body of the inner loop of reduce_setup: walk the requirement
names of the dequeued package, adding unseen ones to the visited set and
to the back of the queue. -/
def bfsStep : List String → List String → List String → List String × List String
  | visited, queue, [] => (visited, queue)
  | visited, queue, r :: rs =>
    if r ∈ visited then bfsStep visited queue rs
    else bfsStep (visited ++ [r]) (queue ++ [r]) rs

/-- The while loop of reduce_setup.  The loop terminates in the source
because every queued name enters the visited set exactly once; the fuel
argument is an artifact of embedding the while loop and is chosen large
enough in reduce_setup that it is never exhausted (proved in
reduce_loop_spec).  none models a KeyError from setup[package] or
dependencies[vp]. -/
def reduce_loop (deps : Dependencies) (setup : Setup) :
    Nat → List String → List String → Option (List String)
  | _, [], visited => some visited
  | 0, _ :: _, _ => none
  | fuel + 1, p :: queue, visited => do
      let v ← setup.lookup p
      let dm ← PyDict.lookup deps ⟨p, v⟩
      let vq := bfsStep visited queue dm.keys
      reduce_loop deps setup fuel vq.2 vq.1

/-- Every name that the BFS of reduce_setup can ever enqueue: the kept
names and every requirement name mentioned anywhere in the dependency
dict. -/
def reduceUniverse (deps : Dependencies) (keep : List String) : List String :=
  dedup (keep ++ (deps.entries.map (fun e => e.2.keys)).flatten)

/-- Source: reduce_setup — check keep is within the setup (else the
source raises), run the BFS from keep, and rebuild the reduced setup
from the visited names. -/
def reduce_setup (deps : Dependencies) (setup : Setup) (keep : List String) :
    Option Setup :=
  if keep.all (fun k => (setup.lookup k).isSome) then
    match reduce_loop deps setup
        (keep.length + (reduceUniverse deps keep).length + 1) keep (dedup keep) with
    | none => none
    | some visited =>
      (mapO (fun p => (setup.lookup p).map (fun v => (p, v))) visited).map PyDict.mk
  else none

/-- Reachability along the dependency relation taken at the versions of
the setup, starting from the kept names. -/
inductive ReachesFrom (deps : Dependencies) (setup : Setup) (keep : List String) :
    String → Prop
  | base (x : String) : x ∈ keep → ReachesFrom deps setup keep x
  | step (p : String) (v : Int) (dm : PyDict String VersionSet) (r : String) :
      ReachesFrom deps setup keep p → setup.lookup p = some v →
      PyDict.lookup deps ⟨p, v⟩ = some dm → r ∈ dm.keys →
      ReachesFrom deps setup keep r

/-- The precondition reduce_setup itself checks: every kept name is in
the setup. -/
def keepInSetup (setup : Setup) (keep : List String) : Bool :=
  keep.all (fun k => (setup.lookup k).isSome)

/-- Every entry of the setup has a dependency entry for its version. -/
def setupHasDeps (deps : Dependencies) (setup : Setup) : Bool :=
  setup.entries.all (fun e => (PyDict.lookup deps ⟨e.1, e.2⟩).isSome)

/-- Every requirement of every entry of the setup is itself in the setup. -/
def setupClosed (deps : Dependencies) (setup : Setup) : Bool :=
  setup.entries.all (fun e =>
    match PyDict.lookup deps ⟨e.1, e.2⟩ with
    | some dm => dm.keys.all (fun r => (setup.lookup r).isSome)
    | none => true)

/-- Exceptions surfaced by the validation prefix of satisfy.  The source
raise of UnknownVersionError is special: that class is never defined
anywhere in the repository (nor imported into utils.py), so evaluating
the raise statement itself raises NameError instead. -/
inductive PyError
  | unknownPackageError
  | nameErrorUnknownVersion
deriving DecidableEq, Repr

/-- The validation prefix of satisfy (utils.py): raise UnknownPackageError
when the package is not in the index; raise UnknownVersionError — in
fact a NameError, since that class is undefined — when the version is not
among the package's versions.  Only after both checks pass is the formula
built (the ok payload), and only then would the solver run. -/
def satisfy_check (index : Index) (deps : Dependencies) (package : String)
    (version : Int) : Except PyError (Option Formula) :=
  match PyDict.lookup index package with
  | none => Except.error PyError.unknownPackageError
  | some vs =>
    if version ∈ vs then Except.ok (Formula.from_dependencies index deps)
    else Except.error PyError.nameErrorUnknownVersion

/-- One element of the list handed to Solver(bootstrap_with=...) by
any_satisfiable: either a genuine clause from the CNF, or a bare integer
variable id appended by the list comprehension on line 68 of utils.py. -/
inductive BootEntry
  | clause (lits : List Int)
  | rawVar (v : Int)
deriving DecidableEq, Repr

/-- Source: Formula.any_satisfiable, the clause list it builds —
self.formula.clauses + [self.vp_to_var[vp] for vp in packages].  Note the
missing brackets: each variable id is appended as a bare int, not as a
unit clause.  none models the KeyError for an unknown package. -/
def Formula.any_satisfiable_entries (f : Formula)
    (packages : List VersionedPackage) : Option (List BootEntry) :=
  (mapO (findVar f.keysList) packages).map
    (fun vars => f.clauses.map BootEntry.clause ++
      vars.map (fun n => BootEntry.rawVar (Int.ofNat n)))

/-- pysat bootstrapping iterates the given list and adds each element as
a clause; a clause must be an iterable of ints, so a bare int raises
TypeError.  This predicate holds exactly when bootstrapping succeeds. -/
def bootstrapAccepts : List BootEntry → Bool
  | [] => true
  | BootEntry.clause _ :: rest => bootstrapAccepts rest
  | BootEntry.rawVar _ :: _ => false

/- Concrete fixtures used by counterexamples and witnesses below. -/

/-- The VersionSet containing exactly version 1 (as VersionSet([VersionRange(1,1)])
builds it). -/
def vs11 : VersionSet := ⟨[⟨1, 1⟩]⟩

/-- Index with packages a (version 1) and b (version 1): package b's
version 2 is deliberately NOT indexed. -/
def exIndex : Index := ⟨[("a", [1]), ("b", [1])]⟩

/-- Dependencies whose keys include the non-indexed (b, 2): (a,1) needs
b in [1,1]; (b,1) has no requirements; (b,2) needs a in [1,1]. -/
def exDeps : Dependencies :=
  ⟨[(⟨"a", 1⟩, ⟨[("b", vs11)]⟩), (⟨"b", 1⟩, ⟨[]⟩), (⟨"b", 2⟩, ⟨[("a", vs11)]⟩)]⟩

/-- The formula from_dependencies builds for exIndex/exDeps: variables
1=(a,1), 2=(b,1), 3=(b,2); no at-most-one pair exists among indexed
versions, and the two dependency clauses. -/
def exFormula : Formula :=
  ⟨[[2, -1], [1, -3]], [⟨"a", 1⟩, ⟨"b", 1⟩, ⟨"b", 2⟩]⟩

/-- The all-true assignment. -/
def allTrue : Nat → Bool := fun _ => true

/-- A coherent loader-shaped pair: both keys of the dependency dict are
indexed. -/
def exIndexW : Index := ⟨[("a", [1]), ("b", [1])]⟩

/-- Coherent dependencies: (a,1) needs b in [1,1]; (b,1) has none. -/
def exDepsW : Dependencies := ⟨[(⟨"a", 1⟩, ⟨[("b", vs11)]⟩), (⟨"b", 1⟩, ⟨[]⟩)]⟩

/-- The formula for exIndexW/exDepsW. -/
def exFormulaW : Formula := ⟨[[2, -1]], [⟨"a", 1⟩, ⟨"b", 1⟩]⟩

/-- Setup fixture for the reduce_setup counterexample: only package a,
whose dependency b is not part of the setup. -/
def exSetup3 : Setup := ⟨[("a", 1)]⟩

/-- Dependencies fixture for the reduce_setup counterexample. -/
def exDeps3 : Dependencies := ⟨[(⟨"a", 1⟩, ⟨[("b", vs11)]⟩)]⟩

/-- Index fixture for the satisfy validation: one package a with only
version 1. -/
def exIndex7 : Index := ⟨[("a", [1])]⟩

/-- Dependencies fixture for the satisfy validation. -/
def exDeps7 : Dependencies := ⟨[(⟨"a", 1⟩, ⟨[]⟩)]⟩

/-- Setup for the C3 witness: both a and b at version 1, with exDepsW as
dependency dict (a needs b, b needs nothing). -/
def exSetupW : Setup := ⟨[("a", 1), ("b", 1)]⟩

theorem VersionRange.contains_iff (r : VersionRange) (v : Int) :
    r.contains v = true ↔ r.start ≤ v ∧ v ≤ r.stop := by
  simp [VersionRange.contains]

theorem PyDict.lookupList_mem {κ ν : Type} [DecidableEq κ] :
    ∀ (l : List (κ × ν)) (k : κ) (v : ν),
      PyDict.lookupList l k = some v → (k, v) ∈ l := by
  intro l
  induction l with
  | nil => intro k v h; simp [PyDict.lookupList] at h
  | cons e rest ih =>
    intro k v h
    obtain ⟨ek, ev⟩ := e
    by_cases hk : ek = k
    · subst hk
      simp [PyDict.lookupList] at h
      simp [h]
    · simp [PyDict.lookupList, hk] at h
      exact List.mem_cons_of_mem _ (ih k v h)

theorem PyDict.lookup_mem {κ ν : Type} [DecidableEq κ] :
    ∀ (d : PyDict κ ν) (k : κ) (v : ν), d.lookup k = some v → (k, v) ∈ d.entries :=
  fun d => PyDict.lookupList_mem d.entries

theorem PyDict.lookupList_isSome_iff {κ ν : Type} [DecidableEq κ] :
    ∀ (l : List (κ × ν)) (k : κ),
      (PyDict.lookupList l k).isSome = true ↔ k ∈ l.map Prod.fst := by
  intro l
  induction l with
  | nil => intro k; simp [PyDict.lookupList]
  | cons e rest ih =>
    intro k
    obtain ⟨ek, ev⟩ := e
    by_cases hk : ek = k
    · subst hk; simp [PyDict.lookupList]
    · simp only [PyDict.lookupList, hk, if_false]
      rw [ih k]
      simp [hk, Ne.symm hk]

theorem PyDict.lookup_isSome_iff {κ ν : Type} [DecidableEq κ] :
    ∀ (d : PyDict κ ν) (k : κ), (d.lookup k).isSome = true ↔ k ∈ d.keys :=
  fun d => PyDict.lookupList_isSome_iff d.entries

theorem PyDict.setList_lookup_self {κ ν : Type} [DecidableEq κ] :
    ∀ (l : List (κ × ν)) (k : κ) (v : ν),
      PyDict.lookupList (PyDict.setList l k v) k = some v := by
  intro l
  induction l with
  | nil => intro k v; simp [PyDict.setList, PyDict.lookupList]
  | cons e rest ih =>
    intro k v
    obtain ⟨ek, ev⟩ := e
    by_cases hk : ek = k
    · subst hk; simp [PyDict.setList, PyDict.lookupList]
    · simp [PyDict.setList, PyDict.lookupList, hk, ih]

theorem PyDict.lookup_set_self {κ ν : Type} [DecidableEq κ] :
    ∀ (d : PyDict κ ν) (k : κ) (v : ν), (d.set k v).lookup k = some v :=
  fun d => PyDict.setList_lookup_self d.entries

theorem PyDict.setList_lookup_other {κ ν : Type} [DecidableEq κ] :
    ∀ (l : List (κ × ν)) (k k' : κ) (v : ν), k ≠ k' →
      PyDict.lookupList (PyDict.setList l k v) k' = PyDict.lookupList l k' := by
  intro l
  induction l with
  | nil => intro k k' v hne; simp [PyDict.setList, PyDict.lookupList, hne]
  | cons e rest ih =>
    intro k k' v hne
    obtain ⟨ek, ev⟩ := e
    by_cases hk : ek = k
    · subst hk; simp [PyDict.setList, PyDict.lookupList, hne]
    · simp only [PyDict.setList, hk, if_false]
      by_cases hk' : ek = k'
      · subst hk'; simp [PyDict.lookupList]
      · simp [PyDict.lookupList, hk', ih _ _ _ hne]

theorem PyDict.lookup_set_other {κ ν : Type} [DecidableEq κ] :
    ∀ (d : PyDict κ ν) (k k' : κ) (v : ν), k ≠ k' →
      (d.set k v).lookup k' = d.lookup k' :=
  fun d => PyDict.setList_lookup_other d.entries

theorem PyDict.mem_keys_setList {κ ν : Type} [DecidableEq κ] :
    ∀ (l : List (κ × ν)) (k key : κ) (v : ν),
      k ∈ (PyDict.setList l key v).map Prod.fst ↔ k ∈ l.map Prod.fst ∨ k = key := by
  intro l
  induction l with
  | nil => intro k key v; simp [PyDict.setList, eq_comm]
  | cons e rest ih =>
    intro k key v
    obtain ⟨ek, ev⟩ := e
    by_cases hk : ek = key
    · subst hk
      simp [PyDict.setList, eq_comm]
      tauto
    · simp only [PyDict.setList, hk, if_false]
      simp only [List.map_cons, List.mem_cons]
      rw [ih]
      tauto

theorem PyDict.mem_keys_set {κ ν : Type} [DecidableEq κ] :
    ∀ (d : PyDict κ ν) (k key : κ) (v : ν),
      k ∈ (d.set key v).keys ↔ k ∈ d.keys ∨ k = key :=
  fun d => PyDict.mem_keys_setList d.entries

theorem memRanges_iff (v : Int) (l : List VersionRange) :
    memRanges v l = true ↔ ∃ r ∈ l, r.contains v = true := by
  induction l with
  | nil => simp [memRanges]
  | cons r rest ih => simp [memRanges, ih]

theorem NormList.nil : NormList [] := by
  constructor <;> simp

theorem NormList.tail {x : VersionRange} {xs : List VersionRange}
    (h : NormList (x :: xs)) : NormList xs := by
  obtain ⟨hv, hc⟩ := h
  exact ⟨fun r hr => hv r (List.mem_cons_of_mem _ hr), hc.tail⟩

theorem chain_start_le :
    ∀ (xs : List VersionRange) (x : VersionRange),
      (∀ r ∈ x :: xs, r.valid) →
      (x :: xs).Chain' (fun a b => a.stop < b.start) →
      ∀ r ∈ xs, x.start ≤ r.start := by
  intro xs
  induction xs with
  | nil => intro x _ _ r hr; simp at hr
  | cons y ys ih =>
    intro x hv hc r hr
    have hxy : x.stop < y.start := (List.chain'_cons.mp hc).1
    have hxv : x.valid := hv x (by simp)
    have hyx : x.start ≤ y.start := le_trans hxv (le_of_lt hxy)
    rcases List.mem_cons.mp hr with h2 | h2
    · subst h2; exact hyx
    · have := ih y (fun r hr => hv r (List.mem_cons_of_mem _ hr))
        (List.chain'_cons.mp hc).2 r h2
      exact le_trans hyx this

theorem NormList.head_start_le {x : VersionRange} {xs : List VersionRange}
    (h : NormList (x :: xs)) : ∀ r ∈ x :: xs, x.start ≤ r.start := by
  obtain ⟨hv, hc⟩ := h
  intro r hr
  rcases List.mem_cons.mp hr with h1 | h1
  · subst h1; exact le_refl _
  · exact chain_start_le xs x hv hc r h1

theorem mem_insertRange (r y : VersionRange) (l : List VersionRange) :
    y ∈ insertRange r l ↔ y = r ∨ y ∈ l := by
  induction l with
  | nil => simp [insertRange]
  | cons x xs ih =>
    by_cases h : r.start ≤ x.start
    · simp [insertRange, h]
    · simp [insertRange, h, ih]
      tauto

theorem sortedRanges_insertRange (r : VersionRange) (l : List VersionRange)
    (h : l.Pairwise (fun a b => a.start ≤ b.start)) :
    (insertRange r l).Pairwise (fun a b => a.start ≤ b.start) := by
  induction l with
  | nil => simp [insertRange]
  | cons x xs ih =>
    by_cases hle : r.start ≤ x.start
    · simp only [insertRange, hle, if_true]
      refine List.pairwise_cons.mpr ⟨?_, h⟩
      intro b hb
      rcases List.mem_cons.mp hb with h1 | h1
      · subst h1; exact hle
      · exact le_trans hle ((List.pairwise_cons.mp h).1 b h1)
    · simp only [insertRange, hle, if_false]
      refine List.pairwise_cons.mpr ⟨?_, ih (List.pairwise_cons.mp h).2⟩
      intro b hb
      rcases (mem_insertRange r b xs).mp hb with h1 | h1
      · subst h1; exact le_of_not_le hle
      · exact (List.pairwise_cons.mp h).1 b h1

theorem mem_sortRanges (l : List VersionRange) (y : VersionRange) :
    y ∈ sortRanges l ↔ y ∈ l := by
  induction l with
  | nil => simp [sortRanges]
  | cons x xs ih => simp [sortRanges, mem_insertRange, ih]

theorem sorted_sortRanges (l : List VersionRange) :
    (sortRanges l).Pairwise (fun a b => a.start ≤ b.start) := by
  induction l with
  | nil => simp [sortRanges]
  | cons x xs ih => exact sortedRanges_insertRange x (sortRanges xs) ih

theorem sweepRanges_spec :
    ∀ (l : List VersionRange) (current : VersionRange),
      current.valid →
      (∀ r ∈ l, r.valid) →
      l.Pairwise (fun a b => a.start ≤ b.start) →
      (∀ r ∈ l, current.start ≤ r.start) →
      ∃ out, sweepRanges current l = some out ∧
        NormList out ∧
        (∀ v, memRanges v out = true ↔
          (current.contains v = true ∨ ∃ r ∈ l, r.contains v = true)) ∧
        (∀ r ∈ out, current.start ≤ r.start) ∧
        out ≠ [] := by
  intro l
  induction l with
  | nil =>
    intro current hvc _ _ _
    refine ⟨[current], rfl, ⟨?_, ?_⟩, ?_, ?_, ?_⟩
    · intro r hr; simp at hr; subst hr; exact hvc
    · simp
    · intro v; simp [memRanges]
    · intro r hr; simp at hr; subst hr; exact le_refl _
    · simp
  | cons r rest ih =>
    intro current hvc hvl hsort hcs
    have hvr : r.valid := hvl r (by simp)
    have hcr : current.start ≤ r.start := hcs r (by simp)
    have hrrest : ∀ x ∈ rest, r.start ≤ x.start :=
      fun x hx => (List.pairwise_cons.mp hsort).1 x hx
    by_cases hgap : current.stop < r.start
    · -- a gap: emit current and continue from r
      obtain ⟨out', hout', hnorm', hmem', hstart', hne'⟩ :=
        ih r hvr (fun x hx => hvl x (List.mem_cons_of_mem _ hx))
          (List.pairwise_cons.mp hsort).2 hrrest
      refine ⟨current :: out', ?_, ⟨?_, ?_⟩, ?_, ?_, ?_⟩
      · simp [sweepRanges, hgap, hout']
      · intro x hx
        rcases List.mem_cons.mp hx with h1 | h1
        · subst h1; exact hvc
        · exact hnorm'.1 x h1
      · rw [List.chain'_cons']
        refine ⟨?_, hnorm'.2⟩
        intro y hy
        have hyo : y ∈ out' := by
          cases out' with
          | nil => simp at hy
          | cons a as => simp at hy; subst hy; simp
        exact lt_of_lt_of_le hgap (hstart' y hyo)
      · intro v
        simp only [memRanges, Bool.or_eq_true, hmem' v, List.mem_cons]
        constructor
        · rintro (h | h | ⟨x, hx, hxc⟩)
          · exact Or.inl h
          · exact Or.inr ⟨r, Or.inl rfl, h⟩
          · exact Or.inr ⟨x, Or.inr hx, hxc⟩
        · rintro (h | ⟨x, hx | hx, hxc⟩)
          · exact Or.inl h
          · subst hx; exact Or.inr (Or.inl hxc)
          · exact Or.inr (Or.inr ⟨x, hx, hxc⟩)
      · intro x hx
        rcases List.mem_cons.mp hx with h1 | h1
        · subst h1; exact le_refl _
        · exact le_trans hcr (hstart' x h1)
      · simp
    · -- touch or overlap: merge current with r
      have hnd : ¬ (current.stop < r.start ∨ r.stop < current.start) := by
        push_neg
        refine ⟨le_of_not_lt hgap, le_trans hcr hvr⟩
      have hvc' : current.start ≤ current.stop := hvc
      have hvr' : r.start ≤ r.stop := hvr
      have hrc : r.start ≤ current.stop := le_of_not_lt hgap
      set c : VersionRange := ⟨min current.start r.start, max current.stop r.stop⟩ with hcdef
      have hcstart : c.start = current.start := by
        show min current.start r.start = current.start
        exact min_eq_left hcr
      have hstople : current.stop ≤ c.stop := le_max_left _ _
      have hstopr : r.stop ≤ c.stop := le_max_right _ _
      have hstopchoice : c.stop = current.stop ∨ c.stop = r.stop := max_choice _ _
      have hvcc : c.valid := by
        show c.start ≤ c.stop
        rcases hstopchoice with h | h <;> omega
      have hu : current.union? r = some c := by
        simp only [VersionRange.union?]
        rw [if_neg hnd, hcdef]
      obtain ⟨out, hout, hnorm, hmem, hstart, hne⟩ :=
        ih c hvcc (fun x hx => hvl x (List.mem_cons_of_mem _ hx))
          (List.pairwise_cons.mp hsort).2
          (fun x hx => by
            have h1 : r.start ≤ x.start := hrrest x hx
            omega)
      have hcmem : ∀ v, c.contains v = true ↔
          (current.contains v = true ∨ r.contains v = true) := by
        intro v
        simp only [VersionRange.contains_iff]
        rcases hstopchoice with h | h <;> omega
      refine ⟨out, ?_, hnorm, ?_, ?_, hne⟩
      · show sweepRanges current (r :: rest) = some out
        simp only [sweepRanges]
        rw [if_neg hgap, hu]
        exact hout
      · intro v
        rw [hmem v]
        simp only [List.mem_cons]
        constructor
        · rintro (h | ⟨x, hx, hxc⟩)
          · rcases (hcmem v).mp h with h1 | h1
            · exact Or.inl h1
            · exact Or.inr ⟨r, Or.inl rfl, h1⟩
          · exact Or.inr ⟨x, Or.inr hx, hxc⟩
        · rintro (h | ⟨x, hx | hx, hxc⟩)
          · exact Or.inl ((hcmem v).mpr (Or.inl h))
          · subst hx; exact Or.inl ((hcmem v).mpr (Or.inr hxc))
          · exact Or.inr ⟨x, hx, hxc⟩
      · intro x hx
        have := hstart x hx
        omega

theorem VersionSet.build_spec (rs : List VersionRange) (h : ∀ r ∈ rs, r.valid) :
    ∃ s, VersionSet.build rs = some s ∧ NormList s.ranges ∧
      ∀ v, s.mem v = true ↔ ∃ r ∈ rs, r.contains v = true := by
  rcases hs : sortRanges rs with _ | ⟨r0, rest⟩
  · refine ⟨⟨[]⟩, ?_, NormList.nil, ?_⟩
    · simp [VersionSet.build, hs]
    · intro v
      simp only [VersionSet.mem, memRanges]
      constructor
      · intro hfalse; exact absurd hfalse (by simp)
      · rintro ⟨r, hr, _⟩
        have : r ∈ sortRanges rs := (mem_sortRanges rs r).mpr hr
        rw [hs] at this
        simp at this
  · have hsorted : (r0 :: rest).Pairwise (fun a b => a.start ≤ b.start) := by
      rw [← hs]; exact sorted_sortRanges rs
    have hvall : ∀ r ∈ r0 :: rest, r.valid := by
      intro r hr
      apply h
      rw [← mem_sortRanges rs r, hs]
      exact hr
    obtain ⟨out, hout, hnorm, hmem, _, _⟩ :=
      sweepRanges_spec (r0 :: rest) r0 (hvall r0 (by simp)) hvall hsorted
        (fun r hr => by
          rcases List.mem_cons.mp hr with h1 | h1
          · subst h1; exact le_refl _
          · exact (List.pairwise_cons.mp hsorted).1 r h1)
    refine ⟨⟨out⟩, ?_, hnorm, ?_⟩
    · simp [VersionSet.build, hs, hout]
    · intro v
      show memRanges v out = true ↔ _
      rw [hmem v]
      constructor
      · rintro (h1 | ⟨x, hx, hxc⟩)
        · refine ⟨r0, ?_, h1⟩
          rw [← mem_sortRanges rs r0, hs]; simp
        · refine ⟨x, ?_, hxc⟩
          rw [← mem_sortRanges rs x, hs]; exact hx
      · rintro ⟨x, hx, hxc⟩
        have : x ∈ r0 :: rest := by rw [← hs]; exact (mem_sortRanges rs x).mpr hx
        rcases List.mem_cons.mp this with h1 | h1
        · subst h1; exact Or.inl hxc
        · exact Or.inr ⟨x, this, hxc⟩

theorem NormList.stop_lt_tail {x : VersionRange} {xs : List VersionRange}
    (h : NormList (x :: xs)) : ∀ r ∈ xs, x.stop < r.start := by
  intro r hr
  cases xs with
  | nil => simp at hr
  | cons y ys =>
    have h1 : x.stop < y.start := (List.chain'_cons.mp h.2).1
    have h2 : y.start ≤ r.start := NormList.head_start_le h.tail r hr
    omega

theorem interAux_mem :
    ∀ (n : Nat) (L R : List VersionRange), L.length + R.length ≤ n →
      NormList L → NormList R → ∀ v : Int,
      (memRanges v (interAux L R) = true ↔
        (memRanges v L = true ∧ memRanges v R = true)) := by
  intro n
  induction n with
  | zero =>
    intro L R hlen _ _ v
    rcases L with _ | ⟨l, ls⟩
    · simp [interAux, memRanges]
    · rcases R with _ | ⟨r, rs⟩
      · simp [interAux, memRanges]
      · simp at hlen
  | succ n ih =>
    intro L R hlen hL hR v
    rcases L with _ | ⟨l, ls⟩
    · simp [interAux, memRanges]
    rcases R with _ | ⟨r, rs⟩
    · simp [interAux, memRanges]
    have hLt := hL.tail
    have hRt := hR.tail
    have hlv : l.start ≤ l.stop := hL.1 l (by simp)
    have hrv : r.start ≤ r.stop := hR.1 r (by simp)
    simp only [List.length_cons] at hlen
    by_cases h1 : l.stop < r.start
    · have hstep : interAux (l :: ls) (r :: rs) = interAux ls (r :: rs) := by
        rw [interAux]
        simp [h1]
      rw [hstep, ih ls (r :: rs) (by simp; omega) hLt hR v]
      simp only [memRanges, Bool.or_eq_true]
      constructor
      · rintro ⟨ha, hb⟩; exact ⟨Or.inr ha, hb⟩
      · rintro ⟨hc | ha, hb⟩
        · exfalso
          have hv1 := (VersionRange.contains_iff _ _).mp hc
          rcases hb with hb | hb
          · have hv2 := (VersionRange.contains_iff _ _).mp hb
            omega
          · rcases (memRanges_iff v rs).mp hb with ⟨x, hx, hxc⟩
            have hxs : r.start ≤ x.start :=
              hR.head_start_le x (List.mem_cons_of_mem _ hx)
            have hv2 := (VersionRange.contains_iff _ _).mp hxc
            omega
        · exact ⟨ha, hb⟩
    · by_cases h2 : r.stop < l.start
      · have hstep : interAux (l :: ls) (r :: rs) = interAux (l :: ls) rs := by
          rw [interAux]
          simp [h1, h2]
        rw [hstep, ih (l :: ls) rs (by simp; omega) hL hRt v]
        simp only [memRanges, Bool.or_eq_true]
        constructor
        · rintro ⟨ha, hb⟩; exact ⟨ha, Or.inr hb⟩
        · rintro ⟨ha, hc | hb⟩
          · exfalso
            have hv1 := (VersionRange.contains_iff _ _).mp hc
            rcases ha with ha | ha
            · have hv2 := (VersionRange.contains_iff _ _).mp ha
              omega
            · rcases (memRanges_iff v ls).mp ha with ⟨x, hx, hxc⟩
              have hxs : l.start ≤ x.start :=
                hL.head_start_le x (List.mem_cons_of_mem _ hx)
              have hv2 := (VersionRange.contains_iff _ _).mp hxc
              omega
          · exact ⟨ha, hb⟩
      · by_cases h3 : l.stop < r.stop
        · have hstep : interAux (l :: ls) (r :: rs) =
              ⟨max l.start r.start, l.stop⟩ :: interAux ls (r :: rs) := by
            rw [interAux]
            simp [h1, h2, h3]
          rw [hstep]
          simp only [memRanges, Bool.or_eq_true,
            ih ls (r :: rs) (by simp; omega) hLt hR v]
          have hm : (VersionRange.contains ⟨max l.start r.start, l.stop⟩ v = true) ↔
              (l.contains v = true ∧ r.contains v = true) := by
            simp only [VersionRange.contains_iff]
            have : max l.start r.start = l.start ∨ max l.start r.start = r.start :=
              max_choice _ _
            have h4 : l.start ≤ max l.start r.start := le_max_left _ _
            have h5 : r.start ≤ max l.start r.start := le_max_right _ _
            rcases this with h6 | h6 <;> (rw [h6]; omega)
          rw [hm]
          constructor
          · rintro (⟨ha, hb⟩ | ⟨ha, hb⟩)
            · exact ⟨Or.inl ha, Or.inl hb⟩
            · exact ⟨Or.inr ha, hb⟩
          · rintro ⟨hc1 | hc1, hc2⟩
            · rcases hc2 with hc2 | hc2
              · exact Or.inl ⟨hc1, hc2⟩
              · exfalso
                rcases (memRanges_iff v rs).mp hc2 with ⟨x, hx, hxc⟩
                have hxs : r.stop < x.start := hR.stop_lt_tail x hx
                have hv1 := (VersionRange.contains_iff _ _).mp hc1
                have hv2 := (VersionRange.contains_iff _ _).mp hxc
                omega
            · exact Or.inr ⟨hc1, hc2⟩
        · have hstep : interAux (l :: ls) (r :: rs) =
              ⟨max l.start r.start, r.stop⟩ :: interAux (l :: ls) rs := by
            rw [interAux]
            simp [h1, h2, h3]
          rw [hstep]
          simp only [memRanges, Bool.or_eq_true,
            ih (l :: ls) rs (by simp; omega) hL hRt v]
          have hm : (VersionRange.contains ⟨max l.start r.start, r.stop⟩ v = true) ↔
              (l.contains v = true ∧ r.contains v = true) := by
            simp only [VersionRange.contains_iff]
            have : max l.start r.start = l.start ∨ max l.start r.start = r.start :=
              max_choice _ _
            have h4 : l.start ≤ max l.start r.start := le_max_left _ _
            have h5 : r.start ≤ max l.start r.start := le_max_right _ _
            rcases this with h6 | h6 <;> (rw [h6]; omega)
          rw [hm]
          constructor
          · rintro (⟨ha, hb⟩ | ⟨ha, hb⟩)
            · exact ⟨Or.inl ha, Or.inl hb⟩
            · exact ⟨ha, Or.inr hb⟩
          · rintro ⟨hc1, hc2 | hc2⟩
            · rcases hc1 with hc1 | hc1
              · exact Or.inl ⟨hc1, hc2⟩
              · exfalso
                rcases (memRanges_iff v ls).mp hc1 with ⟨x, hx, hxc⟩
                have hxs : l.stop < x.start := hL.stop_lt_tail x hx
                have hv1 := (VersionRange.contains_iff _ _).mp hc2
                have hv2 := (VersionRange.contains_iff _ _).mp hxc
                omega
            · exact Or.inr ⟨hc1, hc2⟩

theorem interAux_valid :
    ∀ (n : Nat) (L R : List VersionRange), L.length + R.length ≤ n →
      (∀ r ∈ L, r.valid) → (∀ r ∈ R, r.valid) →
      ∀ x ∈ interAux L R, x.valid := by
  intro n
  induction n with
  | zero =>
    intro L R hlen _ _ x hx
    rcases L with _ | ⟨l, ls⟩
    · simp [interAux] at hx
    · rcases R with _ | ⟨r, rs⟩
      · simp [interAux] at hx
      · simp at hlen
  | succ n ih =>
    intro L R hlen hL hR x hx
    rcases L with _ | ⟨l, ls⟩
    · simp [interAux] at hx
    rcases R with _ | ⟨r, rs⟩
    · simp [interAux] at hx
    have hlv : l.start ≤ l.stop := hL l (by simp)
    have hrv : r.start ≤ r.stop := hR r (by simp)
    have hLt : ∀ y ∈ ls, y.valid := fun y hy => hL y (List.mem_cons_of_mem _ hy)
    have hRt : ∀ y ∈ rs, y.valid := fun y hy => hR y (List.mem_cons_of_mem _ hy)
    simp only [List.length_cons] at hlen
    by_cases h1 : l.stop < r.start
    · rw [show interAux (l :: ls) (r :: rs) = interAux ls (r :: rs) from by
        rw [interAux]; simp [h1]] at hx
      exact ih ls (r :: rs) (by simp; omega) hLt hR x hx
    · by_cases h2 : r.stop < l.start
      · rw [show interAux (l :: ls) (r :: rs) = interAux (l :: ls) rs from by
          rw [interAux]; simp [h1, h2]] at hx
        exact ih (l :: ls) rs (by simp; omega) hL hRt x hx
      · by_cases h3 : l.stop < r.stop
        · rw [show interAux (l :: ls) (r :: rs) =
              ⟨max l.start r.start, l.stop⟩ :: interAux ls (r :: rs) from by
            rw [interAux]; simp [h1, h2, h3]] at hx
          rcases List.mem_cons.mp hx with h4 | h4
          · subst h4
            show max l.start r.start ≤ l.stop
            simp only [max_le_iff]
            omega
          · exact ih ls (r :: rs) (by simp; omega) hLt hR x h4
        · rw [show interAux (l :: ls) (r :: rs) =
              ⟨max l.start r.start, r.stop⟩ :: interAux (l :: ls) rs from by
            rw [interAux]; simp [h1, h2, h3]] at hx
          rcases List.mem_cons.mp hx with h4 | h4
          · subst h4
            show max l.start r.start ≤ r.stop
            simp only [max_le_iff]
            omega
          · exact ih (l :: ls) rs (by simp; omega) hL hRt x h4

theorem NormList.valid_of {l : List VersionRange} (h : NormList l) :
    ∀ r ∈ l, r.valid := h.1

theorem VersionSet.union_spec (a b : VersionSet)
    (ha : ∀ r ∈ a.ranges, r.valid) (hb : ∀ r ∈ b.ranges, r.valid) :
    ∃ c, a.union b = some c ∧ NormList c.ranges ∧
      ∀ v, c.mem v = true ↔ (a.mem v = true ∨ b.mem v = true) := by
  obtain ⟨c, hc, hnorm, hmem⟩ :=
    VersionSet.build_spec (a.ranges ++ b.ranges)
      (fun r hr => by
        rcases List.mem_append.mp hr with h | h
        · exact ha r h
        · exact hb r h)
  refine ⟨c, hc, hnorm, fun v => ?_⟩
  rw [hmem v]
  simp only [VersionSet.mem, memRanges_iff, List.mem_append]
  constructor
  · rintro ⟨r, h | h, hrc⟩
    · exact Or.inl ⟨r, h, hrc⟩
    · exact Or.inr ⟨r, h, hrc⟩
  · rintro (⟨r, h, hrc⟩ | ⟨r, h, hrc⟩)
    · exact ⟨r, Or.inl h, hrc⟩
    · exact ⟨r, Or.inr h, hrc⟩

theorem VersionSet.intersection_spec (a b : VersionSet)
    (ha : NormList a.ranges) (hb : NormList b.ranges) :
    ∃ c, a.intersection b = some c ∧ NormList c.ranges ∧
      ∀ v, c.mem v = true ↔ (a.mem v = true ∧ b.mem v = true) := by
  obtain ⟨c, hc, hnorm, hmem⟩ :=
    VersionSet.build_spec (interAux a.ranges b.ranges)
      (interAux_valid (a.ranges.length + b.ranges.length) a.ranges b.ranges
        (le_refl _) ha.valid_of hb.valid_of)
  refine ⟨c, hc, hnorm, fun v => ?_⟩
  rw [hmem v]
  rw [← memRanges_iff v (interAux a.ranges b.ranges)]
  exact interAux_mem (a.ranges.length + b.ranges.length) a.ranges b.ranges
    (le_refl _) ha hb v

theorem combineSem_cons (mode : Mode) (r0 : VersionRange) (rs : List VersionRange) (v : Int) :
    combineSem mode (r0 :: rs) v ↔
      combPoint mode (r0.contains v = true) (combineSem mode rs v) := by
  cases mode <;> simp [combineSem, combPoint]

theorem combineSem_singleton (mode : Mode) (r0 : VersionRange) (v : Int) :
    combineSem mode [r0] v ↔ r0.contains v = true := by
  cases mode <;> simp [combineSem]

theorem combPoint_congr {mode : Mode} {P P' Q Q' : Prop}
    (h1 : P ↔ P') (h2 : Q ↔ Q') : combPoint mode P Q ↔ combPoint mode P' Q' := by
  cases mode <;> simp [combPoint, h1, h2]

theorem combPoint_assoc (mode : Mode) (P Q R : Prop) :
    combPoint mode (combPoint mode P Q) R ↔ combPoint mode P (combPoint mode Q R) := by
  cases mode <;> simp [combPoint, and_assoc, or_assoc]

theorem VersionSet.build_singleton_spec (r0 : VersionRange) (hv : r0.valid) :
    ∃ s, VersionSet.build [r0] = some s ∧ NormList s.ranges ∧
      ∀ v, s.mem v = true ↔ r0.contains v = true := by
  obtain ⟨s, hs, hnorm, hmem⟩ :=
    VersionSet.build_spec [r0] (fun r hr => by simp at hr; subst hr; exact hv)
  refine ⟨s, hs, hnorm, fun v => ?_⟩
  rw [hmem v]
  simp

theorem rangesHandler_spec (mode : Mode) (vs : VersionSet) (r0 : VersionRange)
    (hn : NormList vs.ranges) (hv : r0.valid) :
    ∃ c, rangesHandler mode vs r0 = some c ∧ NormList c.ranges ∧
      ∀ v, c.mem v = true ↔
        combPoint mode (vs.mem v = true) (r0.contains v = true) := by
  obtain ⟨nv, hnv, hnvnorm, hnvmem⟩ := VersionSet.build_singleton_spec r0 hv
  cases mode with
  | intersection =>
    obtain ⟨c, hc, hcnorm, hcmem⟩ := VersionSet.intersection_spec vs nv hn hnvnorm
    refine ⟨c, ?_, hcnorm, fun v => ?_⟩
    · simp [rangesHandler, hnv, hc]
    · rw [hcmem v, hnvmem v]
      simp [combPoint]
  | union =>
    obtain ⟨c, hc, hcnorm, hcmem⟩ :=
      VersionSet.union_spec vs nv hn.valid_of hnvnorm.valid_of
    refine ⟨c, ?_, hcnorm, fun v => ?_⟩
    · simp [rangesHandler, hnv, hc]
    · rw [hcmem v, hnvmem v]
      simp [combPoint]

theorem accumDeps_spec (mode : Mode) :
    ∀ (raw : List (String × VersionRange)) (d : PyDict String VersionSet),
      (∀ e ∈ raw, e.2.valid) →
      (∀ nm vs, d.lookup nm = some vs → NormList vs.ranges) →
      ∃ d', accumDeps mode raw d = some d' ∧
        (∀ nm vs, d'.lookup nm = some vs → NormList vs.ranges) ∧
        ∀ nm, accumPost mode (d.lookup nm) (rangesOf nm raw) (d'.lookup nm) := by
  intro raw
  induction raw with
  | nil =>
    intro d hval hnorm
    exact ⟨d, rfl, hnorm, fun nm => by simp [accumPost, rangesOf]⟩
  | cons e rest ih =>
    intro d hval hnorm
    obtain ⟨nm0, r0⟩ := e
    have hr0 : r0.valid := hval (nm0, r0) (by simp)
    have hvalrest : ∀ e ∈ rest, e.2.valid :=
      fun e he => hval e (List.mem_cons_of_mem _ he)
    cases hbase : d.lookup nm0 with
    | some vs =>
      have hvsnorm := hnorm nm0 vs hbase
      obtain ⟨c, hc, hcnorm, hcmem⟩ := rangesHandler_spec mode vs r0 hvsnorm hr0
      have hnorm1 : ∀ nm vs', (d.set nm0 c).lookup nm = some vs' →
          NormList vs'.ranges := by
        intro nm vs' hl
        by_cases h : nm0 = nm
        · subst h; rw [PyDict.lookup_set_self] at hl
          cases hl; exact hcnorm
        · rw [PyDict.lookup_set_other d nm0 nm c h] at hl
          exact hnorm nm vs' hl
      obtain ⟨d', hd', hnormd', hpost⟩ := ih (d.set nm0 c) hvalrest hnorm1
      refine ⟨d', ?_, hnormd', ?_⟩
      · have heq : accumDeps mode ((nm0, r0) :: rest) d =
            (do
              let combined ← rangesHandler mode vs r0
              accumDeps mode rest (d.set nm0 combined)) := by
          simp [accumDeps, hbase]
        rw [heq, hc]
        exact hd'
      · intro nm
        by_cases h : nm0 = nm
        · subst h
          have hro : rangesOf nm0 ((nm0, r0) :: rest) = r0 :: rangesOf nm0 rest := by
            simp [rangesOf]
          rw [hro, hbase]
          have hpost0 := hpost nm0
          rw [PyDict.lookup_set_self] at hpost0
          rcases hrest : rangesOf nm0 rest with _ | ⟨rr, rrs⟩
          · rw [hrest] at hpost0
            simp only [accumPost] at hpost0 ⊢
            refine ⟨c, hpost0, fun v => ?_⟩
            rw [hcmem v]
            exact combPoint_congr Iff.rfl (combineSem_singleton mode r0 v).symm
          · rw [hrest] at hpost0
            simp only [accumPost] at hpost0 ⊢
            obtain ⟨vs', hvs', hmem'⟩ := hpost0
            refine ⟨vs', hvs', fun v => ?_⟩
            rw [hmem' v, hcmem v, combineSem_cons mode r0 (rr :: rrs) v]
            exact combPoint_assoc mode _ _ _
        · have hro : rangesOf nm ((nm0, r0) :: rest) = rangesOf nm rest := by
            simp [rangesOf, h]
          rw [hro]
          have hpost0 := hpost nm
          rw [PyDict.lookup_set_other d nm0 nm c h] at hpost0
          exact hpost0
    | none =>
      obtain ⟨nv, hnv, hnvnorm, hnvmem⟩ := VersionSet.build_singleton_spec r0 hr0
      have hnorm1 : ∀ nm vs', (d.set nm0 nv).lookup nm = some vs' →
          NormList vs'.ranges := by
        intro nm vs' hl
        by_cases h : nm0 = nm
        · subst h; rw [PyDict.lookup_set_self] at hl
          cases hl; exact hnvnorm
        · rw [PyDict.lookup_set_other d nm0 nm nv h] at hl
          exact hnorm nm vs' hl
      obtain ⟨d', hd', hnormd', hpost⟩ := ih (d.set nm0 nv) hvalrest hnorm1
      refine ⟨d', ?_, hnormd', ?_⟩
      · have heq : accumDeps mode ((nm0, r0) :: rest) d =
            (do
              let nv ← VersionSet.build [r0]
              accumDeps mode rest (d.set nm0 nv)) := by
          simp [accumDeps, hbase]
        rw [heq, hnv]
        exact hd'
      · intro nm
        by_cases h : nm0 = nm
        · subst h
          have hro : rangesOf nm0 ((nm0, r0) :: rest) = r0 :: rangesOf nm0 rest := by
            simp [rangesOf]
          rw [hro, hbase]
          have hpost0 := hpost nm0
          rw [PyDict.lookup_set_self] at hpost0
          rcases hrest : rangesOf nm0 rest with _ | ⟨rr, rrs⟩
          · rw [hrest] at hpost0
            simp only [accumPost] at hpost0 ⊢
            refine ⟨nv, hpost0, fun v => ?_⟩
            rw [hnvmem v]
            exact (combineSem_singleton mode r0 v).symm
          · rw [hrest] at hpost0
            simp only [accumPost] at hpost0 ⊢
            obtain ⟨vs', hvs', hmem'⟩ := hpost0
            refine ⟨vs', hvs', fun v => ?_⟩
            rw [hmem' v, hnvmem v, combineSem_cons mode r0 (rr :: rrs) v]
        · have hro : rangesOf nm ((nm0, r0) :: rest) = rangesOf nm rest := by
            simp [rangesOf, h]
          rw [hro]
          have hpost0 := hpost nm
          rw [PyDict.lookup_set_other d nm0 nm nv h] at hpost0
          exact hpost0

theorem mapO_isSome_iff {α β : Type} (f : α → Option β) :
    ∀ l : List α, (mapO f l).isSome = true ↔ ∀ x ∈ l, (f x).isSome = true := by
  intro l
  induction l with
  | nil => simp [mapO]
  | cons x xs ih =>
    constructor
    · intro h x' hx'
      simp only [mapO] at h
      rcases hfx : f x with _ | y
      · rw [hfx] at h; simp at h
      · rcases hxs : mapO f xs with _ | ys
        · rw [hfx, hxs] at h; simp at h
        · rcases List.mem_cons.mp hx' with h1 | h1
          · subst h1; simp [hfx]
          · exact ih.mp (by rw [hxs]; simp) x' h1
    · intro h
      have hfx : (f x).isSome = true := h x (by simp)
      have hxs : (mapO f xs).isSome = true :=
        ih.mpr (fun z hz => h z (List.mem_cons_of_mem _ hz))
      rcases hfx' : f x with _ | y
      · rw [hfx'] at hfx; simp at hfx
      · rcases hxs' : mapO f xs with _ | ys
        · rw [hxs'] at hxs; simp at hxs
        · simp [mapO, hfx', hxs']

theorem mapO_mem_rev {α β : Type} (f : α → Option β) :
    ∀ (l : List α) (out : List β), mapO f l = some out →
      ∀ y ∈ out, ∃ x ∈ l, f x = some y := by
  intro l
  induction l with
  | nil =>
    intro out h y hy
    simp [mapO] at h
    subst h; simp at hy
  | cons x xs ih =>
    intro out h y hy
    simp only [mapO] at h
    rcases hfx : f x with _ | z
    · rw [hfx] at h; simp at h
    · rcases hxs : mapO f xs with _ | ys
      · rw [hfx, hxs] at h; simp at h
      · rw [hfx, hxs] at h
        simp only [Option.some.injEq] at h
        subst h
        rcases List.mem_cons.mp hy with h1 | h1
        · subst h1; exact ⟨x, by simp, hfx⟩
        · obtain ⟨w, hw, hfw⟩ := ih ys hxs y h1
          exact ⟨w, List.mem_cons_of_mem _ hw, hfw⟩

theorem mapO_mem_fwd {α β : Type} (f : α → Option β) :
    ∀ (l : List α) (out : List β), mapO f l = some out →
      ∀ x ∈ l, ∃ y ∈ out, f x = some y := by
  intro l
  induction l with
  | nil => intro out h x hx; simp at hx
  | cons z zs ih =>
    intro out h x hx
    simp only [mapO] at h
    rcases hfz : f z with _ | y
    · rw [hfz] at h; simp at h
    · rcases hzs : mapO f zs with _ | ys
      · rw [hfz, hzs] at h; simp at h
      · rw [hfz, hzs] at h
        simp only [Option.some.injEq] at h
        subst h
        rcases List.mem_cons.mp hx with h1 | h1
        · subst h1; exact ⟨y, by simp, hfz⟩
        · obtain ⟨w, hw, hfw⟩ := ih ys hzs x h1
          exact ⟨w, List.mem_cons_of_mem _ hw, hfw⟩

theorem findVar_isSome_iff :
    ∀ (ks : List VersionedPackage) (vp : VersionedPackage),
      (findVar ks vp).isSome = true ↔ vp ∈ ks := by
  intro ks vp
  induction ks with
  | nil => simp [findVar]
  | cons k ks ih =>
    by_cases h : k = vp
    · subst h; simp [findVar]
    · simp only [findVar, h, if_false, List.mem_cons]
      rcases hfv : findVar ks vp with _ | n
      · rw [hfv] at ih
        simp only [Option.isSome_none, Bool.false_eq_true, false_iff] at ih
        simp [Ne.symm h, ih]
      · rw [hfv] at ih
        simp only [Option.isSome_some, true_iff] at ih
        simp [ih]

theorem findVar_spec :
    ∀ (ks : List VersionedPackage) (vp : VersionedPackage) (n : Nat),
      findVar ks vp = some n →
      1 ≤ n ∧ ks.get? (n - 1) = some vp := by
  intro ks
  induction ks with
  | nil => intro vp n h; simp [findVar] at h
  | cons k ks ih =>
    intro vp n h
    by_cases hk : k = vp
    · subst hk
      simp [findVar] at h
      subst h
      exact ⟨le_refl _, rfl⟩
    · simp only [findVar, hk, if_false] at h
      rcases hfv : findVar ks vp with _ | m
      · rw [hfv] at h; simp at h
      · rw [hfv] at h
        simp only [Option.map_some', Option.some.injEq] at h
        subst h
        obtain ⟨hm1, hmget⟩ := ih vp m hfv
        refine ⟨by omega, ?_⟩
        have h2 : m + 1 - 1 = (m - 1) + 1 := by omega
        rw [h2, List.get?_cons_succ]
        exact hmget

theorem mem_trueVpsAux (a : Nat → Bool) :
    ∀ (ks : List VersionedPackage) (i : Nat) (vp : VersionedPackage),
      vp ∈ trueVpsAux a i ks ↔
        ∃ j, ks.get? j = some vp ∧ a (i + j) = true := by
  intro ks
  induction ks with
  | nil => intro i vp; simp [trueVpsAux]
  | cons k ks ih =>
    intro i vp
    simp only [trueVpsAux]
    by_cases hai : a i
    · rw [if_pos hai]
      simp only [List.mem_cons]
      rw [ih (i + 1) vp]
      constructor
      · rintro (h | ⟨j, hj, haj⟩)
        · subst h
          exact ⟨0, by simp, by simpa using hai⟩
        · refine ⟨j + 1, by simpa using hj, ?_⟩
          have : i + (j + 1) = i + 1 + j := by omega
          rw [this]; exact haj
      · rintro ⟨j, hj, haj⟩
        rcases j with _ | j'
        · simp at hj; subst hj; exact Or.inl rfl
        · refine Or.inr ⟨j', by simpa using hj, ?_⟩
          have : i + 1 + j' = i + (j' + 1) := by omega
          rw [this]; exact haj
    · rw [if_neg hai]
      rw [ih (i + 1) vp]
      constructor
      · rintro ⟨j, hj, haj⟩
        refine ⟨j + 1, by simpa using hj, ?_⟩
        have : i + (j + 1) = i + 1 + j := by omega
        rw [this]; exact haj
      · rintro ⟨j, hj, haj⟩
        rcases j with _ | j'
        · simp at hj; subst hj
          simp only [Nat.add_zero] at haj
          exact absurd haj (by simpa using hai)
        · refine ⟨j', by simpa using hj, ?_⟩
          have : i + 1 + j' = i + (j' + 1) := by omega
          rw [this]; exact haj

theorem trueVpsAux_sublist (a : Nat → Bool) :
    ∀ (ks : List VersionedPackage) (i : Nat), List.Sublist (trueVpsAux a i ks) ks := by
  intro ks
  induction ks with
  | nil => intro i; simp [trueVpsAux]
  | cons k ks ih =>
    intro i
    simp only [trueVpsAux]
    by_cases hai : a i
    · rw [if_pos hai]
      exact List.Sublist.cons₂ k (ih (i + 1))
    · rw [if_neg hai]
      exact List.Sublist.cons k (ih (i + 1))

theorem trueVps_sublist (ks : List VersionedPackage) (a : Nat → Bool) :
    List.Sublist (trueVps ks a) ks := trueVpsAux_sublist a ks 1

theorem mem_trueVps_of_findVar {ks : List VersionedPackage} {vp : VersionedPackage}
    {a : Nat → Bool} {n : Nat} (hf : findVar ks vp = some n) (ha : a n = true) :
    vp ∈ trueVps ks a := by
  obtain ⟨h1, hget⟩ := findVar_spec ks vp n hf
  rw [trueVps, mem_trueVpsAux]
  refine ⟨n - 1, hget, ?_⟩
  have : 1 + (n - 1) = n := by omega
  rw [this]; exact ha

theorem findVar_of_mem_trueVps {ks : List VersionedPackage} {vp : VersionedPackage}
    {a : Nat → Bool} (hnd : ks.Nodup) (hmem : vp ∈ trueVps ks a) :
    ∃ n, findVar ks vp = some n ∧ a n = true := by
  rw [trueVps, mem_trueVpsAux] at hmem
  obtain ⟨j, hj, haj⟩ := hmem
  have hmemk : vp ∈ ks := by
    rw [List.get?_eq_some] at hj
    obtain ⟨hlt, hget⟩ := hj
    exact hget ▸ List.get_mem ks _ hlt
  have hsome : (findVar ks vp).isSome = true := (findVar_isSome_iff ks vp).mpr hmemk
  rcases hfv : findVar ks vp with _ | n
  · rw [hfv] at hsome; simp at hsome
  · obtain ⟨h1, hget⟩ := findVar_spec ks vp n hfv
    rw [List.get?_eq_some] at hj hget
    obtain ⟨hlt1, hg1⟩ := hj
    obtain ⟨hlt2, hg2⟩ := hget
    have : (⟨j, hlt1⟩ : Fin ks.length) = ⟨n - 1, hlt2⟩ :=
      (List.Nodup.get_inj_iff hnd).mp (hg1.trans hg2.symm)
    have hjn : j = n - 1 := by
      have := Fin.val_eq_of_eq this
      simpa using this
    subst hjn
    refine ⟨n, rfl, ?_⟩
    have : 1 + (n - 1) = n := by omega
    rw [this] at haj
    exact haj

theorem lookup_foldl_set :
    ∀ (l : List VersionedPackage) (d : Setup) (name : String) (v : Int),
      (l.foldl (fun d vp => d.set vp.name vp.version) d).lookup name = some v →
      (⟨name, v⟩ : VersionedPackage) ∈ l ∨ d.lookup name = some v := by
  intro l
  induction l with
  | nil => intro d name v h; exact Or.inr h
  | cons vp rest ih =>
    intro d name v h
    simp only [List.foldl_cons] at h
    rcases ih (d.set vp.name vp.version) name v h with h1 | h1
    · exact Or.inl (List.mem_cons_of_mem _ h1)
    · by_cases hn : vp.name = name
      · rw [← hn, PyDict.lookup_set_self] at h1
        cases h1
        left
        have : vp = ⟨vp.name, vp.version⟩ := rfl
        rw [← hn]
        exact this ▸ List.mem_cons_self _ _
      · rw [PyDict.lookup_set_other d vp.name name vp.version hn] at h1
        exact Or.inr h1

theorem lookup_foldl_set_of :
    ∀ (l : List VersionedPackage) (d : Setup) (name : String) (v : Int),
      ((⟨name, v⟩ : VersionedPackage) ∈ l ∨ d.lookup name = some v) →
      (∀ x ∈ l, x.name = name → x.version = v) →
      (l.foldl (fun d vp => d.set vp.name vp.version) d).lookup name = some v := by
  intro l
  induction l with
  | nil =>
    intro d name v h _
    rcases h with h | h
    · simp at h
    · exact h
  | cons vp rest ih =>
    intro d name v h huniq
    simp only [List.foldl_cons]
    by_cases hn : vp.name = name
    · have hv : vp.version = v := huniq vp (by simp) hn
      apply ih
      · right
        rw [← hn, PyDict.lookup_set_self, hv]
      · exact fun x hx => huniq x (List.mem_cons_of_mem _ hx)
    · apply ih
      · rcases h with h | h
        · rcases List.mem_cons.mp h with h1 | h1
          · rw [← h1] at hn; simp at hn
          · exact Or.inl h1
        · right
          rw [PyDict.lookup_set_other d vp.name name vp.version hn]
          exact h
      · exact fun x hx => huniq x (List.mem_cons_of_mem _ hx)

theorem pairs_mem {α : Type} :
    ∀ (l : List α) (i j : Nat) (hi : i < l.length) (hj : j < l.length),
      i < j → (l.get ⟨i, hi⟩, l.get ⟨j, hj⟩) ∈ pairs l := by
  intro l
  induction l with
  | nil => intro i j hi _ _; simp at hi
  | cons x xs ih =>
    intro i j hi hj hij
    rcases i with _ | i'
    · rcases j with _ | j'
      · omega
      · simp only [pairs, List.mem_append, List.mem_map]
        left
        refine ⟨xs.get ⟨j', by simpa using hj⟩, List.get_mem _ _ _, rfl⟩
    · rcases j with _ | j'
      · omega
      · simp only [pairs, List.mem_append]
        right
        exact ih i' j' (by simpa using hi) (by simpa using hj) (by omega)

theorem cnfSat_clause {a : Nat → Bool} {cs : List (List Int)} {c : List Int}
    (h : cnfSat a cs = true) (hc : c ∈ cs) : clauseSat a c = true := by
  rw [cnfSat, List.all_eq_true] at h
  exact h c hc

theorem from_dependencies_parts {index : Index} {deps : Dependencies} {f : Formula}
    (h : Formula.from_dependencies index deps = some f) :
    ∃ amo dcs, amoClauses deps.keys index.entries = some amo ∧
      allDepClauses deps.keys index deps.entries = some dcs ∧
      f.clauses = amo ++ dcs ∧ f.keysList = deps.keys := by
  simp only [Formula.from_dependencies] at h
  rcases hamo : amoClauses deps.keys index.entries with _ | amo
  · rw [hamo] at h; simp at h
  · rcases hdcs : allDepClauses deps.keys index deps.entries with _ | dcs
    · rw [hamo, hdcs] at h; simp at h
    · rw [hamo, hdcs] at h
      have h2 : (⟨amo ++ dcs, deps.keys⟩ : Formula) = f := by simpa using h
      subst h2
      exact ⟨amo, dcs, rfl, rfl, rfl, rfl⟩

theorem mapO_get? {α β : Type} (f : α → Option β) :
    ∀ (l : List α) (out : List β), mapO f l = some out →
      ∀ (i : Nat) (x : α), l.get? i = some x →
        ∃ y, out.get? i = some y ∧ f x = some y := by
  intro l
  induction l with
  | nil => intro out h i x hx; simp at hx
  | cons z zs ih =>
    intro out h i x hx
    simp only [mapO] at h
    rcases hfz : f z with _ | y
    · rw [hfz] at h; simp at h
    · rcases hzs : mapO f zs with _ | ys
      · rw [hfz, hzs] at h; simp at h
      · rw [hfz, hzs] at h
        simp only [Option.some.injEq] at h
        subst h
        rcases i with _ | i'
        · simp at hx
          subst hx
          exact ⟨y, rfl, hfz⟩
        · simp only [List.get?_cons_succ] at hx ⊢
          exact ih ys hzs i' x hx

theorem amoClauses_mem {ks : List VersionedPackage} :
    ∀ (entries : List (String × List Int)) (A : List (List Int)),
      amoClauses ks entries = some A →
      ∀ p vs, (p, vs) ∈ entries →
        ∃ cp, amoForPackage ks p vs = some cp ∧ ∀ c ∈ cp, c ∈ A := by
  intro entries
  induction entries with
  | nil => intro A _ p vs h; simp at h
  | cons e rest ih =>
    intro A hA p vs hmem
    obtain ⟨p0, vs0⟩ := e
    simp only [amoClauses] at hA
    rcases h1 : amoForPackage ks p0 vs0 with _ | c1
    · rw [h1] at hA; simp at hA
    · rcases h2 : amoClauses ks rest with _ | c2
      · rw [h1, h2] at hA; simp at hA
      · rw [h1, h2] at hA
        have hA2 : c1 ++ c2 = A := by simpa using hA
        subst hA2
        rcases List.mem_cons.mp hmem with h3 | h3
        · have hp : p = p0 ∧ vs = vs0 := by
            constructor <;> [exact congrArg Prod.fst h3; exact congrArg Prod.snd h3]
          obtain ⟨hp1, hp2⟩ := hp
          subst hp1; subst hp2
          exact ⟨c1, h1, fun c hc => List.mem_append_left _ hc⟩
        · obtain ⟨cp, hcp, hsub⟩ := ih c2 h2 p vs h3
          exact ⟨cp, hcp, fun c hc => List.mem_append_right _ (hsub c hc)⟩

theorem depClausesFor_mem {ks : List VersionedPackage} {index : Index}
    {vp : VersionedPackage} :
    ∀ (ents : List (String × VersionSet)) (cs : List (List Int)),
      depClausesFor ks index vp ents = some cs →
      ∀ req vset, (req, vset) ∈ ents →
        ∃ c, depClause ks index vp req vset = some c ∧ c ∈ cs := by
  intro ents
  induction ents with
  | nil => intro cs _ req vset h; simp at h
  | cons e rest ih =>
    intro cs hcs req vset hmem
    obtain ⟨req0, vset0⟩ := e
    simp only [depClausesFor] at hcs
    rcases h1 : depClause ks index vp req0 vset0 with _ | c1
    · rw [h1] at hcs; simp at hcs
    · rcases h2 : depClausesFor ks index vp rest with _ | cs2
      · rw [h1, h2] at hcs; simp at hcs
      · rw [h1, h2] at hcs
        have hcs2 : c1 :: cs2 = cs := by simpa using hcs
        subst hcs2
        rcases List.mem_cons.mp hmem with h3 | h3
        · have hp : req = req0 ∧ vset = vset0 := by
            constructor <;> [exact congrArg Prod.fst h3; exact congrArg Prod.snd h3]
          obtain ⟨hp1, hp2⟩ := hp
          subst hp1; subst hp2
          exact ⟨c1, h1, by simp⟩
        · obtain ⟨c, hc, hcmem⟩ := ih cs2 h2 req vset h3
          exact ⟨c, hc, List.mem_cons_of_mem _ hcmem⟩

theorem allDepClauses_mem {ks : List VersionedPackage} {index : Index} :
    ∀ (ents : List (VersionedPackage × PyDict String VersionSet)) (D : List (List Int)),
      allDepClauses ks index ents = some D →
      ∀ vp dm, (vp, dm) ∈ ents →
        ∀ req vset, (req, vset) ∈ dm.entries →
          ∃ c, depClause ks index vp req vset = some c ∧ c ∈ D := by
  intro ents
  induction ents with
  | nil => intro D _ vp dm h; simp at h
  | cons e rest ih =>
    intro D hD vp dm hmem req vset hrv
    obtain ⟨vp0, dm0⟩ := e
    simp only [allDepClauses] at hD
    rcases h1 : depClausesFor ks index vp0 dm0.entries with _ | cs1
    · rw [h1] at hD; simp at hD
    · rcases h2 : allDepClauses ks index rest with _ | cs2
      · rw [h1, h2] at hD; simp at hD
      · rw [h1, h2] at hD
        have hD2 : cs1 ++ cs2 = D := by simpa using hD
        subst hD2
        rcases List.mem_cons.mp hmem with h3 | h3
        · have hp : vp = vp0 ∧ dm = dm0 := by
            constructor <;> [exact congrArg Prod.fst h3; exact congrArg Prod.snd h3]
          obtain ⟨hp1, hp2⟩ := hp
          subst hp1; subst hp2
          obtain ⟨c, hc, hcmem⟩ := depClausesFor_mem dm.entries cs1 h1 req vset hrv
          exact ⟨c, hc, List.mem_append_left _ hcmem⟩
        · obtain ⟨c, hc, hcmem⟩ := ih cs2 h2 vp dm h3 req vset hrv
          exact ⟨c, hc, List.mem_append_right _ hcmem⟩

theorem litSat_pos (a : Nat → Bool) (n : Nat) (hn : 1 ≤ n) :
    litSat a (Int.ofNat n) = a n := by
  simp only [litSat, Int.ofNat_eq_coe]
  rw [if_pos (by omega : (0 : Int) < (n : Int))]
  have : ((n : Int)).toNat = n := by omega
  rw [this]

theorem litSat_neg (a : Nat → Bool) (n : Nat) (hn : 1 ≤ n) :
    litSat a (-(Int.ofNat n)) = ! a n := by
  simp only [litSat, Int.ofNat_eq_coe]
  rw [if_neg (by omega : ¬ (0 : Int) < -(n : Int))]
  have : ((-(-((n : Int)))).toNat) = n := by omega
  rw [this]

theorem coherentB_iff (index : Index) (deps : Dependencies) :
    coherentB index deps = true ↔
      ∀ vp ∈ deps.keys, ∃ vs, index.lookup vp.name = some vs ∧ vp.version ∈ vs := by
  rw [coherentB, List.all_eq_true]
  constructor
  · intro h vp hvp
    rw [PyDict.keys, List.mem_map] at hvp
    obtain ⟨e, he, hfst⟩ := hvp
    have h2 := h e he
    subst hfst
    rcases hl : index.lookup e.1.name with _ | vs
    · rw [hl] at h2; simp at h2
    · rw [hl] at h2
      simp only [decide_eq_true_eq] at h2
      exact ⟨vs, rfl, h2⟩
  · intro h e he
    have hvp : e.1 ∈ deps.keys := by
      rw [PyDict.keys, List.mem_map]; exact ⟨e, he, rfl⟩
    obtain ⟨vs, hvs, hmem⟩ := h e.1 hvp
    rw [hvs]
    simpa using hmem

theorem trueVps_name_injective
    {index : Index} {deps : Dependencies} {f : Formula} {a : Nat → Bool}
    (hf : Formula.from_dependencies index deps = some f)
    (hnd : deps.keys.Nodup)
    (hcoh : coherentB index deps = true)
    (hsat : cnfSat a f.clauses = true) :
    ∀ vp1 ∈ trueVps f.keysList a, ∀ vp2 ∈ trueVps f.keysList a,
      vp1.name = vp2.name → vp1 = vp2 := by
  obtain ⟨amo, dcs, hamo, hdcs, hcl, hks⟩ := from_dependencies_parts hf
  rw [hks]
  rw [coherentB_iff] at hcoh
  intro vp1 h1 vp2 h2 hname
  by_contra hne
  have hk1 : vp1 ∈ deps.keys := (trueVps_sublist deps.keys a).subset h1
  have hk2 : vp2 ∈ deps.keys := (trueVps_sublist deps.keys a).subset h2
  have hvne : vp1.version ≠ vp2.version := by
    intro hv
    apply hne
    cases vp1; cases vp2
    simp only at hname hv
    simp [hname, hv]
  obtain ⟨vs, hvs, hv1⟩ := hcoh vp1 hk1
  have hv2 : vp2.version ∈ vs := by
    obtain ⟨vs2, hvs2, hv2⟩ := hcoh vp2 hk2
    rw [← hname] at hvs2
    rw [hvs] at hvs2
    cases hvs2
    exact hv2
  have hentry : (vp1.name, vs) ∈ index.entries := PyDict.lookup_mem _ _ _ hvs
  obtain ⟨cp, hcp, hsub⟩ := amoClauses_mem index.entries amo hamo vp1.name vs hentry
  simp only [amoForPackage] at hcp
  rcases hvars : mapO (fun v => findVar deps.keys ⟨vp1.name, v⟩) vs with _ | vars
  · rw [hvars] at hcp; simp at hcp
  rw [hvars] at hcp
  have hcp2 : (pairs vars).map (fun q => [-(Int.ofNat q.1), -(Int.ofNat q.2)]) = cp := by
    simpa using hcp
  obtain ⟨i, hi⟩ := List.mem_iff_get?.mp hv1
  obtain ⟨j, hj⟩ := List.mem_iff_get?.mp hv2
  have hij : i ≠ j := by
    intro he
    subst he
    rw [hi] at hj
    exact hvne (by simpa using hj)
  obtain ⟨x1, hx1out, hx1⟩ := mapO_get? _ vs vars hvars i _ hi
  obtain ⟨x2, hx2out, hx2⟩ := mapO_get? _ vs vars hvars j _ hj
  have hx1' : findVar deps.keys vp1 = some x1 := by
    have he : (⟨vp1.name, vp1.version⟩ : VersionedPackage) = vp1 := rfl
    rw [← he]; exact hx1
  have hx2' : findVar deps.keys vp2 = some x2 := by
    have he : (⟨vp1.name, vp2.version⟩ : VersionedPackage) = vp2 := by
      rw [hname]
    rw [← he]; exact hx2
  obtain ⟨n1, hn1, han1⟩ := findVar_of_mem_trueVps hnd h1
  obtain ⟨n2, hn2, han2⟩ := findVar_of_mem_trueVps hnd h2
  rw [hx1'] at hn1
  rw [hx2'] at hn2
  have hax1 : a x1 = true := by cases hn1; exact han1
  have hax2 : a x2 = true := by cases hn2; exact han2
  have hx1ge : 1 ≤ x1 := (findVar_spec _ _ _ hx1').1
  have hx2ge : 1 ≤ x2 := (findVar_spec _ _ _ hx2').1
  -- the at-most-one clause for the pair of positions (min, max)
  rw [List.get?_eq_some] at hx1out hx2out
  obtain ⟨hi1, hg1⟩ := hx1out
  obtain ⟨hi2, hg2⟩ := hx2out
  have hfalse : ∀ c ∈ cp, clauseSat a c = true :=
    fun c hc => cnfSat_clause hsat (hcl ▸ List.mem_append_left _ (hsub c hc))
  rcases Nat.lt_or_ge i j with hlt | hge
  · have hpmem : (vars.get ⟨i, hi1⟩, vars.get ⟨j, hi2⟩) ∈ pairs vars :=
      pairs_mem vars i j hi1 hi2 hlt
    have hcmem : [-(Int.ofNat x1), -(Int.ofNat x2)] ∈ cp := by
      rw [← hcp2, List.mem_map]
      exact ⟨(vars.get ⟨i, hi1⟩, vars.get ⟨j, hi2⟩), hpmem, by rw [hg1, hg2]⟩
    have := hfalse _ hcmem
    simp only [clauseSat, List.any_eq_true] at this
    obtain ⟨lit, hlit, hsatlit⟩ := this
    rcases List.mem_cons.mp hlit with h | h
    · subst h; rw [litSat_neg a x1 hx1ge, hax1] at hsatlit; simp at hsatlit
    · simp only [List.mem_singleton] at h
      subst h; rw [litSat_neg a x2 hx2ge, hax2] at hsatlit; simp at hsatlit
  · have hlt : j < i := by omega
    have hpmem : (vars.get ⟨j, hi2⟩, vars.get ⟨i, hi1⟩) ∈ pairs vars :=
      pairs_mem vars j i hi2 hi1 hlt
    have hcmem : [-(Int.ofNat x2), -(Int.ofNat x1)] ∈ cp := by
      rw [← hcp2, List.mem_map]
      exact ⟨(vars.get ⟨j, hi2⟩, vars.get ⟨i, hi1⟩), hpmem, by rw [hg1, hg2]⟩
    have := hfalse _ hcmem
    simp only [clauseSat, List.any_eq_true] at this
    obtain ⟨lit, hlit, hsatlit⟩ := this
    rcases List.mem_cons.mp hlit with h | h
    · subst h; rw [litSat_neg a x2 hx2ge, hax2] at hsatlit; simp at hsatlit
    · simp only [List.mem_singleton] at h
      subst h; rw [litSat_neg a x1 hx1ge, hax1] at hsatlit; simp at hsatlit

theorem dep_clause_sat
    {index : Index} {deps : Dependencies} {f : Formula} {a : Nat → Bool}
    (hf : Formula.from_dependencies index deps = some f)
    (hnd : deps.keys.Nodup)
    (hsat : cnfSat a f.clauses = true)
    {vp : VersionedPackage} (hvp : vp ∈ trueVps f.keysList a)
    {dm : PyDict String VersionSet} (hdm : deps.lookup vp = some dm)
    {req : String} {allowed : VersionSet} (hreq : (req, allowed) ∈ dm.entries) :
    ∃ w, (⟨req, w⟩ : VersionedPackage) ∈ trueVps f.keysList a ∧
      allowed.mem w = true ∧ w ∈ indexGet index req := by
  obtain ⟨amo, dcs, hamo, hdcs, hcl, hks⟩ := from_dependencies_parts hf
  rw [hks] at hvp ⊢
  have hdm' : (vp, dm) ∈ deps.entries := PyDict.lookup_mem _ _ _ hdm
  obtain ⟨c, hc, hcm⟩ := allDepClauses_mem deps.entries dcs hdcs vp dm hdm' req allowed hreq
  simp only [depClause] at hc
  rcases hpos : mapO (fun v => findVar deps.keys ⟨req, v⟩)
      (allowed.pick (indexGet index req)) with _ | posVars
  · rw [hpos] at hc; simp at hc
  rcases hself : findVar deps.keys vp with _ | selfVar
  · rw [hpos, hself] at hc; simp at hc
  rw [hpos, hself] at hc
  have hc2 : posVars.map Int.ofNat ++ [-(Int.ofNat selfVar)] = c := by
    simpa using hc
  have hcsat : clauseSat a c = true :=
    cnfSat_clause hsat (hcl ▸ List.mem_append_right _ hcm)
  obtain ⟨n, hn, han⟩ := findVar_of_mem_trueVps hnd hvp
  rw [hself] at hn
  have hns : selfVar = n := by simpa using hn
  subst hns
  have hselfge : 1 ≤ selfVar := (findVar_spec _ _ _ hself).1
  rw [← hc2] at hcsat
  rw [clauseSat, List.any_eq_true] at hcsat
  obtain ⟨lit, hlitmem, hsatlit⟩ := hcsat
  rw [List.mem_append] at hlitmem
  rcases hlitmem with hlm | hlm
  · -- a positive literal of a possible version of the requirement is true
    obtain ⟨m, hmmem, hmlit⟩ :
        ∃ m : Nat, m ∈ posVars ∧ Int.ofNat m = lit := List.mem_map.mp hlm
    obtain ⟨v', hv'pick, hv'find⟩ := mapO_mem_rev _ _ posVars hpos m hmmem
    have hmge : 1 ≤ m := (findVar_spec _ _ _ hv'find).1
    subst hmlit
    rw [litSat_pos a m hmge] at hsatlit
    have htv : (⟨req, v'⟩ : VersionedPackage) ∈ trueVps deps.keys a :=
      mem_trueVps_of_findVar hv'find hsatlit
    rw [VersionSet.pick, List.mem_filter] at hv'pick
    exact ⟨v', htv, hv'pick.2, hv'pick.1⟩
  · -- the negated self literal cannot be the true one
    exfalso
    rw [List.mem_singleton] at hlm
    subst hlm
    rw [litSat_neg a selfVar hselfge, han] at hsatlit
    simp at hsatlit

theorem amoForPackage_isSome_iff (ks : List VersionedPackage) (p : String) (vs : List Int) :
    (amoForPackage ks p vs).isSome = true ↔
      ∀ v ∈ vs, (⟨p, v⟩ : VersionedPackage) ∈ ks := by
  constructor
  · intro h v hv
    simp only [amoForPackage] at h
    rcases hm : mapO (fun v => findVar ks ⟨p, v⟩) vs with _ | vars
    · rw [hm] at h; simp at h
    · have h2 := (mapO_isSome_iff _ vs).mp (by rw [hm]; simp) v hv
      rwa [findVar_isSome_iff] at h2
  · intro h
    have h2 : (mapO (fun v => findVar ks ⟨p, v⟩) vs).isSome = true :=
      (mapO_isSome_iff _ _).mpr (fun v hv => (findVar_isSome_iff _ _).mpr (h v hv))
    rcases hm : mapO (fun v => findVar ks ⟨p, v⟩) vs with _ | vars
    · rw [hm] at h2; simp at h2
    · simp [amoForPackage, hm]

theorem amoClauses_isSome_iff (ks : List VersionedPackage) :
    ∀ entries : List (String × List Int),
      (amoClauses ks entries).isSome = true ↔
        ∀ e ∈ entries, ∀ v ∈ e.2, (⟨e.1, v⟩ : VersionedPackage) ∈ ks := by
  intro entries
  induction entries with
  | nil => simp [amoClauses]
  | cons e rest ih =>
    obtain ⟨p0, vs0⟩ := e
    constructor
    · intro h e' he' v hv
      simp only [amoClauses] at h
      rcases h1 : amoForPackage ks p0 vs0 with _ | c1
      · rw [h1] at h; simp at h
      rcases h2 : amoClauses ks rest with _ | c2
      · rw [h1, h2] at h; simp at h
      rcases List.mem_cons.mp he' with h3 | h3
      · subst h3
        exact (amoForPackage_isSome_iff ks p0 vs0).mp (by rw [h1]; simp) v hv
      · exact ih.mp (by rw [h2]; simp) e' h3 v hv
    · intro h
      have h1 : (amoForPackage ks p0 vs0).isSome = true :=
        (amoForPackage_isSome_iff ks p0 vs0).mpr (h (p0, vs0) (by simp))
      have h2 : (amoClauses ks rest).isSome = true :=
        ih.mpr (fun e' he' => h e' (List.mem_cons_of_mem _ he'))
      rcases hm1 : amoForPackage ks p0 vs0 with _ | c1
      · rw [hm1] at h1; simp at h1
      rcases hm2 : amoClauses ks rest with _ | c2
      · rw [hm2] at h2; simp at h2
      simp [amoClauses, hm1, hm2]

theorem depClause_isSome (ks : List VersionedPackage) (index : Index)
    (vp : VersionedPackage) (req : String) (vset : VersionSet)
    (hvp : vp ∈ ks)
    (hidx : ∀ e ∈ index.entries, ∀ v ∈ e.2, (⟨e.1, v⟩ : VersionedPackage) ∈ ks) :
    (depClause ks index vp req vset).isSome = true := by
  have hpos : (mapO (fun v => findVar ks ⟨req, v⟩)
      (vset.pick (indexGet index req))).isSome = true := by
    apply (mapO_isSome_iff _ _).mpr
    intro v hv
    rw [findVar_isSome_iff]
    rw [VersionSet.pick, List.mem_filter] at hv
    have hvidx : v ∈ indexGet index req := hv.1
    rw [indexGet] at hvidx
    rcases hl : index.lookup req with _ | vs
    · rw [hl] at hvidx; simp at hvidx
    · rw [hl] at hvidx
      simp only [Option.getD_some] at hvidx
      exact hidx (req, vs) (PyDict.lookup_mem _ _ _ hl) v hvidx
  rcases hm : mapO (fun v => findVar ks ⟨req, v⟩) (vset.pick (indexGet index req))
      with _ | posVars
  · rw [hm] at hpos; simp at hpos
  · have hself : (findVar ks vp).isSome = true := (findVar_isSome_iff _ _).mpr hvp
    rcases hs : findVar ks vp with _ | sv
    · rw [hs] at hself; simp at hself
    · simp [depClause, hm, hs]

theorem depClausesFor_isSome (ks : List VersionedPackage) (index : Index)
    (vp : VersionedPackage) (hvp : vp ∈ ks)
    (hidx : ∀ e ∈ index.entries, ∀ v ∈ e.2, (⟨e.1, v⟩ : VersionedPackage) ∈ ks) :
    ∀ ents : List (String × VersionSet),
      (depClausesFor ks index vp ents).isSome = true := by
  intro ents
  induction ents with
  | nil => simp [depClausesFor]
  | cons e rest ih =>
    obtain ⟨req0, vset0⟩ := e
    have h1 := depClause_isSome ks index vp req0 vset0 hvp hidx
    rcases hm1 : depClause ks index vp req0 vset0 with _ | c1
    · rw [hm1] at h1; simp at h1
    rcases hm2 : depClausesFor ks index vp rest with _ | cs2
    · rw [hm2] at ih; simp at ih
    simp [depClausesFor, hm1, hm2]

theorem allDepClauses_isSome (ks : List VersionedPackage) (index : Index)
    (hidx : ∀ e ∈ index.entries, ∀ v ∈ e.2, (⟨e.1, v⟩ : VersionedPackage) ∈ ks) :
    ∀ ents : List (VersionedPackage × PyDict String VersionSet),
      (∀ e ∈ ents, e.1 ∈ ks) →
      (allDepClauses ks index ents).isSome = true := by
  intro ents
  induction ents with
  | nil => intro _; simp [allDepClauses]
  | cons e rest ih =>
    intro hmem
    obtain ⟨vp0, dm0⟩ := e
    have h1 := depClausesFor_isSome ks index vp0 (hmem (vp0, dm0) (by simp)) hidx dm0.entries
    rcases hm1 : depClausesFor ks index vp0 dm0.entries with _ | cs1
    · rw [hm1] at h1; simp at h1
    have h2 := ih (fun e' he' => hmem e' (List.mem_cons_of_mem _ he'))
    rcases hm2 : allDepClauses ks index rest with _ | cs2
    · rw [hm2] at h2; simp at h2
    simp [allDepClauses, hm1, hm2]

theorem mem_dedup (x : String) : ∀ l : List String, x ∈ dedup l ↔ x ∈ l := by
  intro l
  induction l with
  | nil => simp [dedup]
  | cons y ys ih =>
    by_cases h : y ∈ ys
    · simp only [dedup, h, if_true, ih, List.mem_cons]
      constructor
      · exact Or.inr
      · rintro (h1 | h1)
        · subst h1; exact h
        · exact h1
    · simp [dedup, h, ih]

theorem nodup_dedup : ∀ l : List String, (dedup l).Nodup := by
  intro l
  induction l with
  | nil => simp [dedup]
  | cons y ys ih =>
    by_cases h : y ∈ ys
    · simpa [dedup, h] using ih
    · simp only [dedup, h, if_false]
      refine List.nodup_cons.mpr ⟨?_, ih⟩
      rw [mem_dedup]
      exact h

theorem bfsStep_visited_mem (x : String) :
    ∀ (reqs visited queue : List String),
      x ∈ (bfsStep visited queue reqs).1 ↔ x ∈ visited ∨ x ∈ reqs := by
  intro reqs
  induction reqs with
  | nil => intro visited queue; simp [bfsStep]
  | cons r rs ih =>
    intro visited queue
    by_cases h : r ∈ visited
    · rw [show bfsStep visited queue (r :: rs) = bfsStep visited queue rs from by
        rw [bfsStep]; simp [h]]
      rw [ih]
      simp only [List.mem_cons]
      constructor
      · rintro (h1 | h1)
        · exact Or.inl h1
        · exact Or.inr (Or.inr h1)
      · rintro (h1 | h1 | h1)
        · exact Or.inl h1
        · subst h1; exact Or.inl h
        · exact Or.inr h1
    · rw [show bfsStep visited queue (r :: rs) =
          bfsStep (visited ++ [r]) (queue ++ [r]) rs from by
        rw [bfsStep]; simp [h]]
      rw [ih]
      simp only [List.mem_append, List.mem_singleton, List.mem_cons]
      tauto

theorem bfsStep_queue_mem (x : String) :
    ∀ (reqs visited queue : List String),
      x ∈ (bfsStep visited queue reqs).2 ↔
        x ∈ queue ∨ (x ∈ reqs ∧ x ∉ visited) := by
  intro reqs
  induction reqs with
  | nil => intro visited queue; simp [bfsStep]
  | cons r rs ih =>
    intro visited queue
    by_cases h : r ∈ visited
    · rw [show bfsStep visited queue (r :: rs) = bfsStep visited queue rs from by
        rw [bfsStep]; simp [h]]
      rw [ih]
      simp only [List.mem_cons]
      constructor
      · rintro (h1 | ⟨h1, h2⟩)
        · exact Or.inl h1
        · exact Or.inr ⟨Or.inr h1, h2⟩
      · rintro (h1 | ⟨h1 | h1, h2⟩)
        · exact Or.inl h1
        · subst h1; exact absurd h h2
        · exact Or.inr ⟨h1, h2⟩
    · rw [show bfsStep visited queue (r :: rs) =
          bfsStep (visited ++ [r]) (queue ++ [r]) rs from by
        rw [bfsStep]; simp [h]]
      rw [ih]
      simp only [List.mem_append, List.mem_singleton, List.mem_cons]
      by_cases hx : x = r
      · subst hx; tauto
      · tauto

theorem bfsStep_nodup :
    ∀ (reqs visited queue : List String), visited.Nodup →
      (bfsStep visited queue reqs).1.Nodup := by
  intro reqs
  induction reqs with
  | nil => intro visited queue h; simpa [bfsStep]
  | cons r rs ih =>
    intro visited queue h
    by_cases hr : r ∈ visited
    · rw [show bfsStep visited queue (r :: rs) = bfsStep visited queue rs from by
        rw [bfsStep]; simp [hr]]
      exact ih visited queue h
    · rw [show bfsStep visited queue (r :: rs) =
          bfsStep (visited ++ [r]) (queue ++ [r]) rs from by
        rw [bfsStep]; simp [hr]]
      apply ih
      simp [List.nodup_append, h, hr]

theorem bfsStep_length :
    ∀ (reqs visited queue : List String),
      (bfsStep visited queue reqs).1.length + queue.length =
        (bfsStep visited queue reqs).2.length + visited.length := by
  intro reqs
  induction reqs with
  | nil => intro visited queue; simp [bfsStep]; omega
  | cons r rs ih =>
    intro visited queue
    by_cases hr : r ∈ visited
    · rw [show bfsStep visited queue (r :: rs) = bfsStep visited queue rs from by
        rw [bfsStep]; simp [hr]]
      exact ih visited queue
    · rw [show bfsStep visited queue (r :: rs) =
          bfsStep (visited ++ [r]) (queue ++ [r]) rs from by
        rw [bfsStep]; simp [hr]]
      have := ih (visited ++ [r]) (queue ++ [r])
      simp only [List.length_append, List.length_singleton] at this ⊢
      omega

theorem nodup_subset_length {l U : List String} (hnd : l.Nodup)
    (hsub : ∀ x ∈ l, x ∈ U) : l.length ≤ U.length := by
  have h1 : l.toFinset.card = l.length := List.toFinset_card_of_nodup hnd
  have h2 : l.toFinset ⊆ U.toFinset := by
    intro x hx
    rw [List.mem_toFinset] at hx ⊢
    exact hsub x hx
  have h3 : l.toFinset.card ≤ U.toFinset.card := Finset.card_le_card h2
  have h4 : U.toFinset.card ≤ U.length := U.toFinset_card_le
  omega

theorem reduce_loop_spec
    (deps : Dependencies) (setup : Setup) (Good : String → Prop)
    (hGoodSetup : ∀ x, Good x →
      ∃ v dm, setup.lookup x = some v ∧ PyDict.lookup deps ⟨x, v⟩ = some dm)
    (hGoodStep : ∀ x v dm r, Good x → setup.lookup x = some v →
      PyDict.lookup deps ⟨x, v⟩ = some dm → r ∈ dm.keys → Good r)
    (U : List String)
    (hU : ∀ x v dm r, setup.lookup x = some v →
      PyDict.lookup deps ⟨x, v⟩ = some dm → r ∈ dm.keys → r ∈ U) :
    ∀ (fuel : Nat) (queue visited : List String),
      visited.Nodup →
      (∀ x ∈ queue, x ∈ visited) →
      (∀ x ∈ visited, x ∈ U) →
      (∀ x ∈ visited, Good x) →
      (∀ p ∈ visited, p ∉ queue →
        ∃ v dm, setup.lookup p = some v ∧ PyDict.lookup deps ⟨p, v⟩ = some dm ∧
          ∀ r ∈ dm.keys, r ∈ visited) →
      queue.length + U.length ≤ fuel + visited.length →
      ∃ out, reduce_loop deps setup fuel queue visited = some out ∧
        (∀ x ∈ visited, x ∈ out) ∧ out.Nodup ∧ (∀ x ∈ out, Good x) ∧
        (∀ p ∈ out,
          ∃ v dm, setup.lookup p = some v ∧ PyDict.lookup deps ⟨p, v⟩ = some dm ∧
            ∀ r ∈ dm.keys, r ∈ out) := by
  intro fuel
  induction fuel with
  | zero =>
    intro queue visited hnd hqv hvU hvG hproc hcount
    have hvlen : visited.length ≤ U.length := nodup_subset_length hnd hvU
    have hq : queue = [] := by
      cases queue with
      | nil => rfl
      | cons q qs => simp only [List.length_cons] at hcount; omega
    subst hq
    refine ⟨visited, rfl, fun x hx => hx, hnd, hvG, ?_⟩
    intro p hp
    exact hproc p hp (by simp)
  | succ fuel ih =>
    intro queue visited hnd hqv hvU hvG hproc hcount
    cases queue with
    | nil =>
      refine ⟨visited, rfl, fun x hx => hx, hnd, hvG, ?_⟩
      intro p hp
      exact hproc p hp (by simp)
    | cons p rest =>
      have hpv : p ∈ visited := hqv p (by simp)
      have hpG : Good p := hvG p hpv
      obtain ⟨v, dm, hv, hdm⟩ := hGoodSetup p hpG
      have hstep : reduce_loop deps setup (fuel + 1) (p :: rest) visited =
          reduce_loop deps setup fuel (bfsStep visited rest dm.keys).2
            (bfsStep visited rest dm.keys).1 := by
        rw [reduce_loop, hv]
        show (PyDict.lookup deps ⟨p, v⟩).bind
            (fun dm => reduce_loop deps setup fuel (bfsStep visited rest dm.keys).2
              (bfsStep visited rest dm.keys).1) = _
        rw [hdm]
        rfl
      set vq := bfsStep visited rest dm.keys with hvq
      have hmem1 : ∀ x, x ∈ vq.1 ↔ x ∈ visited ∨ x ∈ dm.keys :=
        fun x => bfsStep_visited_mem x dm.keys visited rest
      have hmem2 : ∀ x, x ∈ vq.2 ↔ x ∈ rest ∨ (x ∈ dm.keys ∧ x ∉ visited) :=
        fun x => bfsStep_queue_mem x dm.keys visited rest
      have hnd1 : vq.1.Nodup := bfsStep_nodup dm.keys visited rest hnd
      have hsub1 : ∀ x ∈ visited, x ∈ vq.1 :=
        fun x hx => (hmem1 x).mpr (Or.inl hx)
      obtain ⟨out, hout, hvsub, houtnd, houtG, houtproc⟩ :=
        ih vq.2 vq.1 hnd1
          (fun x hx => by
            rcases (hmem2 x).mp hx with h1 | ⟨h1, _⟩
            · exact hsub1 x (hqv x (List.mem_cons_of_mem _ h1))
            · exact (hmem1 x).mpr (Or.inr h1))
          (fun x hx => by
            rcases (hmem1 x).mp hx with h1 | h1
            · exact hvU x h1
            · exact hU p v dm x hv hdm h1)
          (fun x hx => by
            rcases (hmem1 x).mp hx with h1 | h1
            · exact hvG x h1
            · exact hGoodStep p v dm x hpG hv hdm h1)
          (fun q hq hqnot => by
            by_cases hqvis : q ∈ visited
            · by_cases hqp : q = p
              · subst hqp
                exact ⟨v, dm, hv, hdm, fun r hr => (hmem1 r).mpr (Or.inr hr)⟩
              · have hqrest : q ∉ rest := by
                  intro hqr
                  exact hqnot ((hmem2 q).mpr (Or.inl hqr))
                have hqold : q ∉ p :: rest := by
                  simp [hqp, hqrest]
                obtain ⟨v', dm', hv', hdm', hsub'⟩ := hproc q hqvis hqold
                exact ⟨v', dm', hv', hdm', fun r hr => hsub1 r (hsub' r hr)⟩
            · rcases (hmem1 q).mp hq with h1 | h1
              · exact absurd h1 hqvis
              · exact absurd ((hmem2 q).mpr (Or.inr ⟨h1, hqvis⟩)) hqnot)
          (by
            have hlen := bfsStep_length dm.keys visited rest
            rw [← hvq] at hlen
            simp only [List.length_cons] at hcount
            omega)
      refine ⟨out, ?_, fun x hx => hvsub x (hsub1 x hx), houtnd, houtG, houtproc⟩
      rw [hstep]
      exact hout

theorem setupHasDeps_lookup {deps : Dependencies} {setup : Setup}
    (h : setupHasDeps deps setup = true) {p : String} {v : Int}
    (hl : setup.lookup p = some v) :
    (PyDict.lookup deps ⟨p, v⟩).isSome = true := by
  rw [setupHasDeps, List.all_eq_true] at h
  exact h (p, v) (PyDict.lookup_mem _ _ _ hl)

theorem setupClosed_lookup {deps : Dependencies} {setup : Setup}
    (h : setupClosed deps setup = true) {p : String} {v : Int}
    {dm : PyDict String VersionSet} (hl : setup.lookup p = some v)
    (hdm : PyDict.lookup deps ⟨p, v⟩ = some dm) {r : String} (hr : r ∈ dm.keys) :
    (setup.lookup r).isSome = true := by
  rw [setupClosed, List.all_eq_true] at h
  have h2 := h (p, v) (PyDict.lookup_mem _ _ _ hl)
  simp only [hdm] at h2
  rw [List.all_eq_true] at h2
  exact h2 r hr

theorem reaches_lookups {deps : Dependencies} {setup : Setup} {keep : List String}
    (hkeep : keepInSetup setup keep = true)
    (hhas : setupHasDeps deps setup = true)
    (hclosed : setupClosed deps setup = true) :
    ∀ x, ReachesFrom deps setup keep x →
      ∃ v dm, setup.lookup x = some v ∧ PyDict.lookup deps ⟨x, v⟩ = some dm := by
  intro x hx
  induction hx with
  | base y hy =>
    rw [keepInSetup, List.all_eq_true] at hkeep
    have h1 := hkeep y hy
    rcases hl : setup.lookup y with _ | v
    · rw [hl] at h1; simp at h1
    · have h2 := setupHasDeps_lookup hhas hl
      rcases hdm : PyDict.lookup deps ⟨y, v⟩ with _ | dm
      · rw [hdm] at h2; simp at h2
      · exact ⟨v, dm, rfl, hdm⟩
  | step p v dm r _ hv hdm hr _ =>
    have h1 := setupClosed_lookup hclosed hv hdm hr
    rcases hl : setup.lookup r with _ | vr
    · rw [hl] at h1; simp at h1
    · have h2 := setupHasDeps_lookup hhas hl
      rcases hdmr : PyDict.lookup deps ⟨r, vr⟩ with _ | dmr
      · rw [hdmr] at h2; simp at h2
      · exact ⟨vr, dmr, rfl, hdmr⟩

theorem PyDict.lookup_mk_nodup {κ ν : Type} [DecidableEq κ] :
    ∀ (l : List (κ × ν)), (l.map Prod.fst).Nodup →
      ∀ (k : κ) (v : ν), (PyDict.mk l).lookup k = some v ↔ (k, v) ∈ l := by
  intro l
  induction l with
  | nil => intro _ k v; simp [PyDict.lookup, PyDict.lookupList]
  | cons e rest ih =>
    intro hnd k v
    obtain ⟨k0, v0⟩ := e
    simp only [List.map_cons, List.nodup_cons] at hnd
    by_cases hk : k0 = k
    · subst hk
      simp only [PyDict.lookup, PyDict.lookupList, if_pos rfl, List.mem_cons]
      constructor
      · intro h
        left
        simpa using h.symm
      · rintro (h | h)
        · simp at h
          simp [h]
        · exfalso
          exact hnd.1 (List.mem_map.mpr ⟨(k0, v), h, rfl⟩)
    · simp only [PyDict.lookup, PyDict.lookupList, if_neg hk, List.mem_cons]
      rw [show PyDict.lookupList rest k = (PyDict.mk rest).lookup k from rfl]
      rw [ih hnd.2 k v]
      constructor
      · exact Or.inr
      · rintro (h | h)
        · exfalso
          apply hk
          exact congrArg Prod.fst h.symm
        · exact h

theorem reduce_setup_spec (deps : Dependencies) (setup : Setup) (keep : List String)
    (hkeep : keepInSetup setup keep = true)
    (hhas : setupHasDeps deps setup = true)
    (hclosed : setupClosed deps setup = true) :
    ∃ result, reduce_setup deps setup keep = some result ∧
      ∀ name v, result.lookup name = some v ↔
        (ReachesFrom deps setup keep name ∧ setup.lookup name = some v) := by
  have hGoodSetup := reaches_lookups hkeep hhas hclosed
  have hGoodStep : ∀ x v dm r, ReachesFrom deps setup keep x →
      setup.lookup x = some v → PyDict.lookup deps ⟨x, v⟩ = some dm →
      r ∈ dm.keys → ReachesFrom deps setup keep r :=
    fun x v dm r hx hv hdm hr => ReachesFrom.step x v dm r hx hv hdm hr
  have hU : ∀ x v dm r, setup.lookup x = some v →
      PyDict.lookup deps ⟨x, v⟩ = some dm → r ∈ dm.keys →
      r ∈ reduceUniverse deps keep := by
    intro x v dm r _ hdm hr
    rw [reduceUniverse, mem_dedup, List.mem_append]
    right
    rw [List.mem_flatten]
    refine ⟨dm.keys, ?_, hr⟩
    rw [List.mem_map]
    exact ⟨(⟨x, v⟩, dm), PyDict.lookup_mem _ _ _ hdm, rfl⟩
  obtain ⟨out, hout, hvsub, houtnd, houtG, houtproc⟩ :=
    reduce_loop_spec deps setup (ReachesFrom deps setup keep) hGoodSetup hGoodStep
      (reduceUniverse deps keep) hU
      (keep.length + (reduceUniverse deps keep).length + 1) keep (dedup keep)
      (nodup_dedup keep)
      (fun x hx => (mem_dedup x keep).mpr hx)
      (fun x hx => by
        rw [reduceUniverse, mem_dedup, List.mem_append]
        exact Or.inl ((mem_dedup x keep).mp hx))
      (fun x hx => ReachesFrom.base x ((mem_dedup x keep).mp hx))
      (fun p hp hnp => absurd ((mem_dedup p keep).mp hp) hnp)
      (by omega)
  -- out is exactly the set of reachable names
  have hout_iff : ∀ x, x ∈ out ↔ ReachesFrom deps setup keep x := by
    intro x
    constructor
    · exact houtG x
    · intro hx
      induction hx with
      | base y hy => exact hvsub y ((mem_dedup y keep).mpr hy)
      | step p v dm r _ hv hdm hr ihp =>
        obtain ⟨v', dm', hv', hdm', hsub'⟩ := houtproc p ihp
        rw [hv] at hv'
        have hvv : v' = v := by simpa using hv'.symm
        subst hvv
        rw [hdm] at hdm'
        have hdd : dm' = dm := by simpa using hdm'.symm
        subst hdd
        exact hsub' r hr
  -- the final comprehension over the visited set
  have hmapO : ∀ x ∈ out, ((fun p => (setup.lookup p).map (fun v => (p, v))) x).isSome = true := by
    intro x hx
    obtain ⟨v, dm, hv, _⟩ := hGoodSetup x (houtG x hx)
    simp [hv]
  have hsome := (mapO_isSome_iff _ out).mpr hmapO
  rcases hm : mapO (fun p => (setup.lookup p).map (fun v => (p, v))) out with _ | entriesList
  · rw [hm] at hsome; simp at hsome
  have hkeys : entriesList.map Prod.fst = out := by
    -- each element maps p to (p, setup[p])
    clear hout_iff hmapO hsome hvsub houtG houtproc hout houtnd
    induction out generalizing entriesList with
    | nil => simp [mapO] at hm; subst hm; simp
    | cons p rest ih =>
      simp only [mapO] at hm
      rcases hfp : (setup.lookup p).map (fun v => (p, v)) with _ | e
      · rw [hfp] at hm; simp at hm
      rcases hrest : mapO (fun p => (setup.lookup p).map (fun v => (p, v))) rest with _ | es
      · rw [hfp, hrest] at hm; simp at hm
      rw [hfp, hrest] at hm
      have hm2 : e :: es = entriesList := by simpa using hm
      subst hm2
      have he : e.1 = p := by
        rcases hsl : setup.lookup p with _ | v
        · rw [hsl] at hfp; simp at hfp
        · rw [hsl] at hfp
          simp only [Option.map_some', Option.some.injEq] at hfp
          rw [← hfp]
      simp only [List.map_cons, he]
      rw [ih es hrest]
  refine ⟨PyDict.mk entriesList, ?_, ?_⟩
  · rw [reduce_setup]
    rw [if_pos (show (keep.all fun k => (PyDict.lookup setup k).isSome) = true from hkeep)]
    rw [hout]
    show Option.map PyDict.mk
        (mapO (fun p => (PyDict.lookup setup p).map (fun v => (p, v))) out) =
      some ⟨entriesList⟩
    rw [hm]
    rfl
  · intro name v
    rw [PyDict.lookup_mk_nodup entriesList (by rw [hkeys]; exact houtnd) name v]
    constructor
    · intro hmem
      obtain ⟨p, hp, hfp⟩ := mapO_mem_rev _ _ _ hm (name, v) hmem
      rcases hsl : setup.lookup p with _ | w
      · rw [hsl] at hfp; simp at hfp
      · rw [hsl] at hfp
        simp only [Option.map_some', Option.some.injEq] at hfp
        have hpn : p = name ∧ w = v := by
          constructor
          · exact congrArg Prod.fst hfp
          · exact congrArg Prod.snd hfp
        obtain ⟨h1, h2⟩ := hpn
        subst h1; subst h2
        exact ⟨(hout_iff p).mp hp, hsl⟩
    · rintro ⟨hreach, hsl⟩
      have hpout : name ∈ out := (hout_iff name).mpr hreach
      obtain ⟨y, hy, hfy⟩ := mapO_mem_fwd _ _ _ hm name hpout
      rw [hsl] at hfy
      simp only [Option.map_some', Option.some.injEq] at hfy
      rw [← hfy] at hy
      exact hy

theorem parse_entry_blank {line : List Char} (h : trimChars line = []) :
    parse_entry line = none := by
  unfold parse_entry
  rw [h]
  rfl

theorem load_lines_blank_none (mode : Mode) :
    ∀ (lines : List (List Char)) (idx : Index) (deps : Dependencies),
      (∃ l ∈ lines, trimChars l = []) → load_lines mode lines idx deps = none := by
  intro lines
  induction lines with
  | nil => rintro idx deps ⟨l, hl, _⟩; simp at hl
  | cons line rest ih =>
    rintro idx deps ⟨l, hl, hblank⟩
    rcases List.mem_cons.mp hl with h1 | h1
    · rw [h1] at hblank
      have hpe := parse_entry_blank hblank
      show (parse_entry line).bind _ = none
      rw [hpe]
      rfl
    · rcases hpe : parse_entry line with _ | pr
      · show (parse_entry line).bind _ = none
        rw [hpe]
        rfl
      · obtain ⟨pv, raw⟩ := pr
        show (parse_entry line).bind _ = none
        rw [hpe]
        show (if pv.version ∈ ((idx.lookup pv.name).getD []) then none else _) = none
        by_cases hdup : pv.version ∈ ((idx.lookup pv.name).getD [])
        · rw [if_pos hdup]
        · rw [if_neg hdup]
          show (accumDeps mode raw ⟨[]⟩).bind _ = none
          rcases had : accumDeps mode raw ⟨[]⟩ with _ | dm
          · rfl
          · show load_lines mode rest _ _ = none
            exact ih _ _ ⟨l, h1, hblank⟩

theorem load_lines_keys_indexed (mode : Mode) :
    ∀ (lines : List (List Char)) (idx : Index) (deps : Dependencies)
      (I : Index) (D : Dependencies),
      load_lines mode lines idx deps = some (I, D) →
      (∀ vp ∈ deps.keys, ∃ vs, idx.lookup vp.name = some vs ∧ vp.version ∈ vs) →
      (∀ vp ∈ D.keys, ∃ vs, I.lookup vp.name = some vs ∧ vp.version ∈ vs) := by
  intro lines
  induction lines with
  | nil =>
    intro idx deps I D hload hinv
    have h2 : idx = I ∧ deps = D := by
      simp only [load_lines, Option.some.injEq] at hload
      exact ⟨congrArg Prod.fst hload, congrArg Prod.snd hload⟩
    obtain ⟨h3, h4⟩ := h2
    subst h3; subst h4
    exact hinv
  | cons line rest ih =>
    intro idx deps I D hload hinv
    rcases hpe : parse_entry line with _ | pr
    · exfalso
      rw [show load_lines mode (line :: rest) idx deps =
          (parse_entry line).bind _ from rfl, hpe] at hload
      simp at hload
    · obtain ⟨pv, raw⟩ := pr
      rw [show load_lines mode (line :: rest) idx deps =
          (parse_entry line).bind (fun pr =>
            (if pr.1.version ∈ ((idx.lookup pr.1.name).getD []) then none
             else
              (accumDeps mode pr.2 ⟨[]⟩).bind (fun dm =>
                load_lines mode rest
                  (idx.set pr.1.name (((idx.lookup pr.1.name).getD []) ++ [pr.1.version]))
                  (deps.set pr.1 dm)))) from rfl, hpe] at hload
      simp only [Option.some_bind] at hload
      by_cases hdup : pv.version ∈ ((idx.lookup pv.name).getD [])
      · rw [if_pos hdup] at hload; simp at hload
      · rw [if_neg hdup] at hload
        rcases had : accumDeps mode raw ⟨[]⟩ with _ | dm
        · rw [had] at hload; simp at hload
        · rw [had] at hload
          simp only [Option.some_bind] at hload
          apply ih _ _ I D hload
          intro vp hvp
          rcases (PyDict.mem_keys_set deps vp pv dm).mp hvp with h1 | h1
          · obtain ⟨vs, hvs, hmem⟩ := hinv vp h1
            by_cases hn : pv.name = vp.name
            · refine ⟨((idx.lookup pv.name).getD []) ++ [pv.version], ?_, ?_⟩
              · rw [hn, PyDict.lookup_set_self]
              · rw [hn, hvs]
                simp only [Option.getD_some, List.mem_append]
                exact Or.inl hmem
            · refine ⟨vs, ?_, hmem⟩
              rw [PyDict.lookup_set_other idx pv.name vp.name _ hn]
              exact hvs
          · subst h1
            refine ⟨((idx.lookup vp.name).getD []) ++ [vp.version], ?_, ?_⟩
            · rw [PyDict.lookup_set_self]
            · simp

theorem setupOf_lookup_mem {ks : List VersionedPackage} {a : Nat → Bool}
    {P : String} {v : Int}
    (h : PyDict.lookup (setupOf ks a) P = some v) :
    (⟨P, v⟩ : VersionedPackage) ∈ trueVps ks a := by
  unfold setupOf at h
  rcases lookup_foldl_set (trueVps ks a) ⟨[]⟩ P v h with h1 | h1
  · exact h1
  · simp [PyDict.lookup, PyDict.lookupList] at h1

theorem setupOf_lookup_of_mem {ks : List VersionedPackage} {a : Nat → Bool}
    {vp : VersionedPackage} (hmem : vp ∈ trueVps ks a)
    (huniq : ∀ x ∈ trueVps ks a, x.name = vp.name → x.version = vp.version) :
    PyDict.lookup (setupOf ks a) vp.name = some vp.version := by
  unfold setupOf
  apply lookup_foldl_set_of
  · left
    have h : vp = ⟨vp.name, vp.version⟩ := rfl
    rw [← h]
    exact hmem
  · exact huniq

/-- C1 (counterexample to the claim as stated): over an arbitrary
dependency dict, a setup decoded from a satisfying assignment of the CNF
built by Formula.from_dependencies can violate a dependency.  Here
package b's version 2 is a key of the dependency dict but is not in the
index, so no at-most-one clause mentions its variable; the all-true
assignment satisfies the CNF, the decoded setup maps b to 2 (the later
entry overwrites (b,1)), and the requirement of (a, 1) that b lie in
[1,1] is violated. -/
theorem sat_correctness_unrestricted_fails :
    Formula.from_dependencies exIndex exDeps = some exFormula ∧
    cnfSat allTrue exFormula.clauses = true ∧
    PyDict.lookup (setupOf exFormula.keysList allTrue) "a" = some 1 ∧
    PyDict.lookup exDeps ⟨"a", 1⟩ = some ⟨[("b", vs11)]⟩ ∧
    PyDict.lookup (setupOf exFormula.keysList allTrue) "b" = some 2 ∧
    vs11.mem 2 = false :=
  ⟨by decide, by decide, by decide, by decide, by decide, by decide⟩

/-- C1 (amended): for a coherent pair — every key of the dependency dict
is recorded in the index under its name, exactly the shape
load_package_index produces — with duplicate-free dict keys, every setup
decoded from a satisfying assignment of the CNF built by
Formula.from_dependencies has all its dependencies satisfied: for every
entry (P, v) of the setup and every requirement (req, allowed) of
dependencies[(P, v)], req is mapped by the setup to a version contained
in allowed. -/
theorem solve_setup_satisfies_dependencies
    (index : Index) (deps : Dependencies) (f : Formula) (a : Nat → Bool)
    (hnd : deps.keys.Nodup)
    (hcoh : coherentB index deps = true)
    (hf : Formula.from_dependencies index deps = some f)
    (hsat : cnfSat a f.clauses = true)
    (P : String) (v : Int)
    (hPv : PyDict.lookup (setupOf f.keysList a) P = some v)
    (dm : PyDict String VersionSet)
    (hdm : PyDict.lookup deps ⟨P, v⟩ = some dm)
    (req : String) (allowed : VersionSet)
    (hreq : (req, allowed) ∈ dm.entries) :
    ∃ w, PyDict.lookup (setupOf f.keysList a) req = some w ∧
      allowed.mem w = true := by
  have hPvmem : (⟨P, v⟩ : VersionedPackage) ∈ trueVps f.keysList a :=
    setupOf_lookup_mem hPv
  obtain ⟨w, hwmem, hwallowed, _⟩ := dep_clause_sat hf hnd hsat hPvmem hdm hreq
  have hinj := trueVps_name_injective hf hnd hcoh hsat
  refine ⟨w, ?_, hwallowed⟩
  have := setupOf_lookup_of_mem hwmem (fun x hx hxname => by
    have h2 := hinj x hx ⟨req, w⟩ hwmem hxname
    rw [h2])
  exact this

/-- C1 witness: on a coherent two-package instance the amended theorem
yields the satisfied requirement of (a, 1). -/
theorem solve_setup_satisfies_dependencies_witness :
    ∃ w, PyDict.lookup (setupOf exFormulaW.keysList allTrue) "b" = some w ∧
      vs11.mem w = true :=
  solve_setup_satisfies_dependencies exIndexW exDepsW exFormulaW allTrue
    (by decide) (by decide) (by decide) (by decide)
    "a" 1 (by decide) ⟨[("b", vs11)]⟩ (by decide) "b" vs11 (by decide)

/-- C2 (counterexample to the claim as stated): with the same
non-coherent dependency dict as for C1, the all-true assignment satisfies
the CNF while both version variables of package b are true; the two
selected versioned packages (b,1) and (b,2) share the name b, and the
returned name-to-version map keeps only (b,2), losing (b,1). -/
theorem at_most_one_unrestricted_fails :
    Formula.from_dependencies exIndex exDeps = some exFormula ∧
    cnfSat allTrue exFormula.clauses = true ∧
    trueVps exFormula.keysList allTrue = [⟨"a", 1⟩, ⟨"b", 1⟩, ⟨"b", 2⟩] ∧
    (⟨"b", 1⟩ : VersionedPackage).name = (⟨"b", 2⟩ : VersionedPackage).name ∧
    (⟨"b", 1⟩ : VersionedPackage) ≠ (⟨"b", 2⟩ : VersionedPackage) ∧
    PyDict.lookup (setupOf exFormula.keysList allTrue) "b" = some 2 :=
  ⟨by decide, by decide, by decide, by decide, by decide, by decide⟩

/-- C2 (amended): for a coherent pair with duplicate-free dict keys, any
satisfying assignment selects at most one version per package: the
selected versioned packages have pairwise distinct names, and
consequently the decoded name-to-version map retains every selected
versioned package. -/
theorem solve_setup_at_most_one
    (index : Index) (deps : Dependencies) (f : Formula) (a : Nat → Bool)
    (hnd : deps.keys.Nodup)
    (hcoh : coherentB index deps = true)
    (hf : Formula.from_dependencies index deps = some f)
    (hsat : cnfSat a f.clauses = true) :
    (trueVps f.keysList a).Pairwise (fun x y => x.name ≠ y.name) ∧
    ∀ vp ∈ trueVps f.keysList a,
      PyDict.lookup (setupOf f.keysList a) vp.name = some vp.version := by
  have hinj := trueVps_name_injective hf hnd hcoh hsat
  obtain ⟨amo, dcs, hamo, hdcs, hcl, hks⟩ := from_dependencies_parts hf
  have htnd : (trueVps f.keysList a).Nodup := by
    rw [hks]
    exact (trueVps_sublist deps.keys a).nodup (hks ▸ hnd)
  constructor
  · rw [List.pairwise_iff_get]
    intro i j hij heq
    have hxy := hinj _ (List.get_mem _ _ _) _ (List.get_mem _ _ _) heq
    have hfin := (List.Nodup.get_inj_iff htnd).mp hxy
    have hval : (i : Nat) = (j : Nat) := by
      simpa using congrArg Fin.val hfin
    have hlt : (i : Nat) < (j : Nat) := hij
    omega
  · intro vp hvp
    apply setupOf_lookup_of_mem hvp
    intro x hx hxname
    have h2 := hinj x hx vp hvp hxname
    rw [h2]

/-- C2 witness: the amended theorem applied to the coherent two-package
instance. -/
theorem solve_setup_at_most_one_witness :
    (trueVps exFormulaW.keysList allTrue).Pairwise (fun x y => x.name ≠ y.name) ∧
    ∀ vp ∈ trueVps exFormulaW.keysList allTrue,
      PyDict.lookup (setupOf exFormulaW.keysList allTrue) vp.name =
        some vp.version :=
  solve_setup_at_most_one exIndexW exDepsW exFormulaW allTrue
    (by decide) (by decide) (by decide) (by decide)

/-- C3 (counterexample to the claim as stated): under exactly the
hypotheses the claim lists — keep within the setup, and every name of
the setup having a dependency entry for its version — reduce_setup can
still crash: here (a,1) requires b, b is not in the setup, so the
dequeue of b raises KeyError on setup[package] instead of returning the
reachable restriction. -/
theorem reduce_setup_crashes_outside_setup :
    keepInSetup exSetup3 ["a"] = true ∧
    setupHasDeps exDeps3 exSetup3 = true ∧
    reduce_setup exDeps3 exSetup3 ["a"] = none :=
  ⟨by decide, by decide, by decide⟩

/-- C3 (amended): when additionally every requirement of every setup
entry is itself in the setup (setupClosed — true of any satisfiable
solver output), reduce_setup returns exactly the restriction of the
setup to the names reachable from keep along the dependency relation at
the versions of the setup: it contains keep, is closed under that
relation, and contains only reachable names. -/
theorem reduce_setup_computes_reachable
    (deps : Dependencies) (setup : Setup) (keep : List String)
    (hkeep : keepInSetup setup keep = true)
    (hhas : setupHasDeps deps setup = true)
    (hclosed : setupClosed deps setup = true) :
    ∃ result, reduce_setup deps setup keep = some result ∧
      ∀ name v, result.lookup name = some v ↔
        (ReachesFrom deps setup keep name ∧ setup.lookup name = some v) :=
  reduce_setup_spec deps setup keep hkeep hhas hclosed

/-- C3 witness: the amended theorem applied to the closed two-package
setup. -/
theorem reduce_setup_computes_reachable_witness :
    ∃ result, reduce_setup exDepsW exSetupW ["a"] = some result ∧
      ∀ name v, result.lookup name = some v ↔
        (ReachesFrom exDepsW exSetupW ["a"] name ∧
          exSetupW.lookup name = some v) :=
  reduce_setup_computes_reachable exDepsW exSetupW ["a"]
    (by decide) (by decide) (by decide)

/-- C4 (confirmed): when one entry lists ranges R1..RN for the same
required package name, the accumulated VersionSet for that name contains
exactly the versions lying in all of the ranges in intersection mode, and
exactly the versions lying in at least one of them in union mode. -/
theorem load_modes_combine_ranges
    (raw : List (String × VersionRange)) (name : String)
    (rs : List VersionRange)
    (hval : ∀ e ∈ raw, e.2.valid)
    (hrs : rangesOf name raw = rs)
    (hne : rs ≠ []) :
    (∃ d, accumDeps Mode.intersection raw ⟨[]⟩ = some d ∧
      ∃ vs, PyDict.lookup d name = some vs ∧
        ∀ v, vs.mem v = true ↔ ∀ r ∈ rs, r.contains v = true) ∧
    (∃ d, accumDeps Mode.union raw ⟨[]⟩ = some d ∧
      ∃ vs, PyDict.lookup d name = some vs ∧
        ∀ v, vs.mem v = true ↔ ∃ r ∈ rs, r.contains v = true) := by
  constructor
  · obtain ⟨d, hd, hnorm, hpost⟩ := accumDeps_spec Mode.intersection raw ⟨[]⟩ hval
      (fun nm vs h => by simp [PyDict.lookup, PyDict.lookupList] at h)
    refine ⟨d, hd, ?_⟩
    have hp := hpost name
    rw [show PyDict.lookup (⟨[]⟩ : PyDict String VersionSet) name = none from rfl,
      hrs] at hp
    rcases rs with _ | ⟨r, rs'⟩
    · exact absurd rfl hne
    · simp only [accumPost] at hp
      obtain ⟨vs', hvs', hmem⟩ := hp
      refine ⟨vs', hvs', fun v => ?_⟩
      rw [hmem v]
      simp [combineSem]
  · obtain ⟨d, hd, hnorm, hpost⟩ := accumDeps_spec Mode.union raw ⟨[]⟩ hval
      (fun nm vs h => by simp [PyDict.lookup, PyDict.lookupList] at h)
    refine ⟨d, hd, ?_⟩
    have hp := hpost name
    rw [show PyDict.lookup (⟨[]⟩ : PyDict String VersionSet) name = none from rfl,
      hrs] at hp
    rcases rs with _ | ⟨r, rs'⟩
    · exact absurd rfl hne
    · simp only [accumPost] at hp
      obtain ⟨vs', hvs', hmem⟩ := hp
      refine ⟨vs', hvs', fun v => ?_⟩
      rw [hmem v]
      simp [combineSem]

/-- C4 witness: an entry that constrains b twice, by 1..5 and by 3..8. -/
theorem load_modes_combine_ranges_witness :
    (∃ d, accumDeps Mode.intersection
        [("b", ⟨1, 5⟩), ("b", ⟨3, 8⟩)] ⟨[]⟩ = some d ∧
      ∃ vs, PyDict.lookup d "b" = some vs ∧
        ∀ v, vs.mem v = true ↔
          ∀ r ∈ ([⟨1, 5⟩, ⟨3, 8⟩] : List VersionRange), r.contains v = true) ∧
    (∃ d, accumDeps Mode.union
        [("b", ⟨1, 5⟩), ("b", ⟨3, 8⟩)] ⟨[]⟩ = some d ∧
      ∃ vs, PyDict.lookup d "b" = some vs ∧
        ∀ v, vs.mem v = true ↔
          ∃ r ∈ ([⟨1, 5⟩, ⟨3, 8⟩] : List VersionRange), r.contains v = true) :=
  load_modes_combine_ranges [("b", ⟨1, 5⟩), ("b", ⟨3, 8⟩)] "b"
    [⟨1, 5⟩, ⟨3, 8⟩] (by decide) (by decide) (by decide)

/-- C5 (code bug): the clause list any_satisfiable hands to the solver is
self.formula.clauses + [self.vp_to_var[vp] for vp in packages] — the
candidates are appended as bare integer variable ids, not wrapped in a
clause.  pysat rejects a non-iterable clause with TypeError, so for any
nonempty candidate list the call raises instead of returning a boolean;
and even read as unit clauses the construction would require all
candidates simultaneously, not at least one, contradicting the method's
own docstring. -/
theorem any_satisfiable_builds_malformed_entries :
    Formula.from_dependencies exIndex exDeps = some exFormula ∧
    Formula.any_satisfiable_entries exFormula [⟨"a", 1⟩] =
      some [BootEntry.clause [2, -1], BootEntry.clause [1, -3],
        BootEntry.rawVar 1] ∧
    bootstrapAccepts [BootEntry.clause [2, -1], BootEntry.clause [1, -3],
      BootEntry.rawVar 1] = false :=
  ⟨by decide, by decide, by decide⟩

/-- C6 (counterexample to the claim as stated): a file with an empty
line among well-formed entries does not load — parse_entry unpacks
line.strip().split(":") into exactly two names, and an empty line yields
one piece, raising ValueError — while the same file without the empty
line loads fine. -/
theorem load_empty_line_counterexample :
    load_package_index Mode.intersection ["a 1:".toList, "".toList] = none ∧
    (load_package_index Mode.intersection ["a 1:".toList]).isSome = true :=
  ⟨by decide, by decide⟩

/-- C6 (amended): empty (or whitespace-only) lines are NOT tolerated:
load_package_index fails on every file containing one, in either mode. -/
theorem load_empty_line_fails (mode : Mode) (lines : List (List Char))
    (hblank : ∃ l ∈ lines, trimChars l = []) :
    load_package_index mode lines = none :=
  load_lines_blank_none mode lines ⟨[]⟩ ⟨[]⟩ hblank

/-- C6 witness: a whitespace-only line makes the load fail. -/
theorem load_empty_line_fails_witness :
    load_package_index Mode.intersection
      ["a 1:".toList, "   ".toList] = none :=
  load_empty_line_fails Mode.intersection ["a 1:".toList, "   ".toList]
    ⟨"   ".toList, by decide, by decide⟩

/-- C7 (code bug): the validation prefix of satisfy rejects an unknown
package with UnknownPackageError and rejects a known package's unknown
version before the formula is built or the solver run — but the latter
rejection executes raise UnknownVersionError(...), and no class of that
name exists anywhere in the repository, so Python actually raises
NameError there rather than the UnknownVersion error the spec names. -/
theorem satisfy_validation_errors :
    satisfy_check exIndex7 exDeps7 "zzz" 1 =
      Except.error PyError.unknownPackageError ∧
    satisfy_check exIndex7 exDeps7 "a" 2 =
      Except.error PyError.nameErrorUnknownVersion :=
  ⟨rfl, rfl⟩

/-- C8 (confirmed): for every list of (constructor-valid) ranges and
every version v, the VersionSet built from the list contains v exactly
when some range of the list contains v: the sort-and-merge normalization
neither adds nor removes versions. -/
theorem versionset_membership_equiv (rs : List VersionRange)
    (hval : ∀ r ∈ rs, r.valid) (v : Int) :
    ∃ s, VersionSet.build rs = some s ∧
      (s.mem v = true ↔ ∃ r ∈ rs, r.contains v = true) := by
  obtain ⟨s, h1, _, h3⟩ := VersionSet.build_spec rs hval
  exact ⟨s, h1, h3 v⟩

/-- C8 witness: the overlapping ranges 1..2 and 5..6 at version 5. -/
theorem versionset_membership_equiv_witness :
    ∃ s, VersionSet.build ([⟨1, 2⟩, ⟨5, 6⟩] : List VersionRange) = some s ∧
      (s.mem 5 = true ↔
        ∃ r ∈ ([⟨1, 2⟩, ⟨5, 6⟩] : List VersionRange), r.contains 5 = true) :=
  versionset_membership_equiv [⟨1, 2⟩, ⟨5, 6⟩] (by decide) 5

/-- C9 (confirmed): Formula.from_dependencies runs to completion exactly
when every (package, version) pair enumerated by the index appears as a
key of the dependency dict; when some indexed version is missing, the
bijection lookup while building the at-most-one clauses raises KeyError
(itertools.combinations materializes the lazy variable map even for a
single-version package). -/
theorem from_dependencies_total_iff (index : Index) (deps : Dependencies) :
    (Formula.from_dependencies index deps).isSome = true ↔
      ∀ e ∈ index.entries, ∀ v ∈ e.2,
        (⟨e.1, v⟩ : VersionedPackage) ∈ deps.keys := by
  constructor
  · intro h
    rcases hf : Formula.from_dependencies index deps with _ | f
    · rw [hf] at h; simp at h
    · obtain ⟨amo, dcs, hamo, _, _, _⟩ := from_dependencies_parts hf
      have h2 : (amoClauses deps.keys index.entries).isSome = true := by
        rw [hamo]; simp
      exact (amoClauses_isSome_iff deps.keys index.entries).mp h2
  · intro h
    have hamoS : (amoClauses deps.keys index.entries).isSome = true :=
      (amoClauses_isSome_iff deps.keys index.entries).mpr h
    have hdcsS : (allDepClauses deps.keys index deps.entries).isSome = true :=
      allDepClauses_isSome deps.keys index h deps.entries
        (fun e he => by rw [PyDict.keys]; exact List.mem_map.mpr ⟨e, he, rfl⟩)
    rcases hm1 : amoClauses deps.keys index.entries with _ | amo
    · rw [hm1] at hamoS; simp at hamoS
    rcases hm2 : allDepClauses deps.keys index deps.entries with _ | dcs
    · rw [hm2] at hdcsS; simp at hdcsS
    simp [Formula.from_dependencies, hm1, hm2]

/-- C10 (confirmed): for any pair produced by load_package_index, every
entry of a setup decoded from a satisfying assignment maps a name to a
version recorded for it in the index: every SAT variable stands for a
key of the dependency dict, and the loader indexes each such key's
version. -/
theorem solve_selects_indexed_versions
    (mode : Mode) (lines : List (List Char)) (index : Index)
    (deps : Dependencies) (f : Formula) (a : Nat → Bool)
    (name : String) (v : Int)
    (hload : load_package_index mode lines = some (index, deps))
    (hf : Formula.from_dependencies index deps = some f)
    (_hsat : cnfSat a f.clauses = true)
    (hlookup : PyDict.lookup (setupOf f.keysList a) name = some v) :
    ∃ vs, PyDict.lookup index name = some vs ∧ v ∈ vs := by
  obtain ⟨amo, dcs, hamo, hdcs, hcl, hks⟩ := from_dependencies_parts hf
  have hmem : (⟨name, v⟩ : VersionedPackage) ∈ trueVps f.keysList a :=
    setupOf_lookup_mem hlookup
  have hkeys : (⟨name, v⟩ : VersionedPackage) ∈ deps.keys := by
    rw [← hks]
    exact (trueVps_sublist f.keysList a).subset hmem
  exact load_lines_keys_indexed mode lines ⟨[]⟩ ⟨[]⟩ index deps hload
    (by intro vp hvp; simp [PyDict.keys] at hvp) ⟨name, v⟩ hkeys

/-- C10 witness: a one-line index declaring a 1 with no dependencies,
solved by the all-true assignment. -/
theorem solve_selects_indexed_versions_witness :
    ∃ vs, PyDict.lookup (⟨[("a", [1])]⟩ : Index) "a" = some vs ∧
      (1 : Int) ∈ vs :=
  solve_selects_indexed_versions Mode.intersection ["a 1:".toList]
    ⟨[("a", [1])]⟩ ⟨[(⟨"a", 1⟩, ⟨[]⟩)]⟩ ⟨[], [⟨"a", 1⟩]⟩ allTrue "a" 1
    (by decide) (by decide) (by decide) (by decide)
